import Mathlib

/-
Verification of the dual-tree pruning core of this mlpack snapshot.

The development shallowly embeds, over exact rational arithmetic:
 * the dual-tree k-means traversal rules
   (src/mlpack/methods/kmeans/dual_tree_kmeans_rules_impl.hpp),
 * the dual-tree k-means driver pieces: UpdateTree, the cluster
   normalization loop of Iterate, CoalesceTree / DecoalesceTree
   (src/mlpack/methods/kmeans/dtnn_kmeans_impl.hpp),
 * the LMNN targets-and-impostors rules: BaseCase, the bounded candidate
   queues, GetResults
   (src/mlpack/methods/lmnn/lmnn_targets_and_impostors_rules_impl.hpp), and
 * the LMNN Constraints constructor check
   (src/mlpack/methods/lmnn/constraints_impl.hpp).

IEEE doubles are modelled as rationals with DBL_MAX a distinguished huge
constant; size_t(-1) is modelled as SIZE_MAX.  The generic traversal engine
is not part of the repository snapshot; traversals are therefore modelled
as event sequences (node-pair scores and point-pair base cases) whose
geometric side conditions (node distance bounds really bound point
distances, and coverage of all clusters) appear as hypotheses.
-/

set_option autoImplicit false

namespace Mlpack

/-- Model of DBL_MAX: a rational numeral larger than every double that can
arise as a distance.  (Written as a literal so that kernel reduction never
has to perform rational arithmetic on it.) -/
def DBL_MAX : ℚ := 179769313486231570000000000000000000000

/-- Model of size_t(-1). -/
def SIZE_MAX : ℕ := 2 ^ 64 - 1

namespace Lmnn

/-! ### Constraints constructor check (constraints_impl.hpp, lines 21-39)

The constructor computes
  minCount = min(histc(labels, unique(labels)))
and issues a fatal error when minCount < k.  The error message itself says
"k should be < minCount". -/

/-- Number of occurrences of label c in the label list (one histc bin). -/
def classCount (labels : List ℕ) (c : ℕ) : ℕ :=
  labels.countP (fun x => x = c)

/-- Minimum class size: min over the distinct labels of their counts
(arma::min(arma::histc(labels, arma::unique(labels)))).  Empty label lists
do not occur in the source usage; they get the neutral value length+1. -/
def minClassCount (labels : List ℕ) : ℕ :=
  (labels.dedup.map (classCount labels)).foldr min (labels.length + 1)

/-- The fatal-error condition of Constraints::Constraints: true exactly when
Log::Fatal is reached, i.e. when minCount < k. -/
def constraintsFatal (labels : List ℕ) (k : ℕ) : Bool :=
  minClassCount labels < k

/-- Claim C9 (code_bug evidence): with labels [0,0,1,1] the smallest class
has 2 instances.  For k = 2 we have k >= smallest class size, so the claim
(and the constructor's own error message, which demands k < minCount) says
construction must fail fatally; but the code's check, minCount < k, does not
fire, so construction succeeds.  The code only fails for k > minCount. -/
theorem constraints_k_eq_min_class_not_fatal :
    constraintsFatal [0, 0, 1, 1] 2 = false ∧
      minClassCount [0, 0, 1, 1] = 2 ∧
      2 ≥ minClassCount [0, 0, 1, 1] ∧
      constraintsFatal [0, 0, 1, 1] 3 = true := by
  decide

end Lmnn

namespace Kmeans

/-! ### The per-node statistic of the dual-tree k-means UpdateTree
(dtnn_kmeans_impl.hpp).  The statistic class itself (with UpperBound,
LowerBound, Pruned, Owner, StaticPruned and the static bound movements) is
not part of the snapshot; its fields are reconstructed from their uses in
dtnn_kmeans_impl.hpp. -/

structure TreeStat where
  upperBound : ℚ
  lowerBound : ℚ
  pruned : ℕ
  owner : ℕ
  staticPruned : Bool
  staticUpperBoundMovement : ℚ
  staticLowerBoundMovement : ℚ
  deriving Repr, DecidableEq

/-- Parameters of UpdateTree that stay fixed during the recursion.
clusterDistances has k+1 entries: index c < k is the movement of cluster c
in the last iteration, index k is the maximum movement.
pointDist models metric.Evaluate(dataset.col(index), centroids.col(owner));
maxDist models node.MaxDistance(centroids.col(owner)) keyed by node id. -/
structure UParams where
  k : ℕ
  clusterDistances : ℕ → ℚ
  interclusterDistances : ℕ → ℚ
  pointDist : ℕ → ℕ → ℚ
  maxDist : ℕ → ℕ → ℚ

/-- The upper bound after adjusting by the owner's movement
(node.Stat().UpperBound() += clusterDistances[owner]). -/
def adjustedUpper (P : UParams) (s : TreeStat) : ℚ :=
  s.upperBound + P.clusterDistances s.owner

/-- The lower bound after subtracting the maximum movement and applying the
intercluster-distance rule (the interclusterBound > LowerBound test). -/
def adjustedLower (P : UParams) (s : TreeStat) : ℚ :=
  let lb1 := s.lowerBound - P.clusterDistances P.k
  let icb := P.interclusterDistances s.owner / 2
  if icb > lb1 then icb else lb1

/-- Bound adjustment for a node that claims single-cluster ownership
(dtnn_kmeans_impl.hpp lines 267-296), applied after the inherit step and
after StaticPruned has been reset to false.  Returns the updated statistic
together with the number of exact max-distance evaluations performed. -/
def adjustBounds (P : UParams) (nid : ℕ) (s : TreeStat) : TreeStat × ℕ :=
  if s.pruned = P.k ∧ s.owner < P.k then
    if adjustedUpper P s < adjustedLower P s then
      ({ s with upperBound := adjustedUpper P s, lowerBound := adjustedLower P s,
                staticPruned := true }, 0)
    else
      if P.maxDist nid s.owner < adjustedLower P s then
        ({ s with upperBound := P.maxDist nid s.owner, lowerBound := adjustedLower P s,
                  staticPruned := true }, 1)
      else
        ({ s with upperBound := P.maxDist nid s.owner, lowerBound := adjustedLower P s }, 1)
  else
    ({ s with lowerBound := s.lowerBound - P.clusterDistances P.k }, 0)

/-- The same step as the specification words it (spec section 4.2, step 2):
"If, after adjustment, upper bound < lower bound, recompute a tight upper
bound via one exact max-distance evaluation; if still invalid, mark the
node as statically pruned".  Under this reading the exact max-distance
evaluation happens when the adjusted upper bound is below the lower bound,
and the node is pruned only if the recomputed upper bound is still below. -/
def adjustBoundsClaim (P : UParams) (nid : ℕ) (s : TreeStat) : TreeStat × ℕ :=
  if s.pruned = P.k ∧ s.owner < P.k then
    if adjustedUpper P s < adjustedLower P s then
      if P.maxDist nid s.owner < adjustedLower P s then
        ({ s with upperBound := P.maxDist nid s.owner, lowerBound := adjustedLower P s,
                  staticPruned := true }, 1)
      else
        ({ s with upperBound := P.maxDist nid s.owner, lowerBound := adjustedLower P s }, 1)
    else
      ({ s with upperBound := adjustedUpper P s, lowerBound := adjustedLower P s }, 0)
  else
    ({ s with lowerBound := s.lowerBound - P.clusterDistances P.k }, 0)

/-- A concrete single-owner node situation: 1 cluster moved by 0, max
movement 0, intercluster distance 10 so the intercluster lower bound is 5;
stored upper bound 1, stored lower bound 0; the exact max distance is 7. -/
def uparamsC6 : UParams where
  k := 1
  clusterDistances := fun _ => 0
  interclusterDistances := fun _ => 10
  pointDist := fun _ _ => 0
  maxDist := fun _ _ => 7

/-- The statistic entering the adjustment in the C6 counterexample. -/
def statC6 : TreeStat where
  upperBound := 1
  lowerBound := 0
  pruned := 1
  owner := 0
  staticPruned := false
  staticUpperBoundMovement := 0
  staticLowerBoundMovement := 0

/-- Claim C6 counterexample: after adjustment the upper bound (1) is below
the lower bound (5).  The code then marks the node statically pruned
immediately, performing zero exact max-distance evaluations; under the
claim's reading the bound would be recomputed (giving 7, not below 5) and
the node would not be pruned.  The two behaviours differ on this input. -/
theorem updatetree_adjust_counterexample :
    (adjustBounds uparamsC6 0 statC6).1.staticPruned = true ∧
      (adjustBounds uparamsC6 0 statC6).2 = 0 ∧
      (adjustBoundsClaim uparamsC6 0 statC6).1.staticPruned = false ∧
      (adjustBoundsClaim uparamsC6 0 statC6).2 = 1 := by
  have h1 : adjustedUpper uparamsC6 statC6 = 1 := by
    norm_num [adjustedUpper, uparamsC6, statC6]
  have h2 : adjustedLower uparamsC6 statC6 = 5 := by
    norm_num [adjustedLower, uparamsC6, statC6]
  have hm : uparamsC6.maxDist 0 statC6.owner = 7 := rfl
  have hco : statC6.pruned = uparamsC6.k ∧ statC6.owner < uparamsC6.k := by
    exact ⟨rfl, Nat.zero_lt_one⟩
  have hlt : adjustedUpper uparamsC6 statC6 < adjustedLower uparamsC6 statC6 := by
    rw [h1, h2]; norm_num
  have hmge : ¬ uparamsC6.maxDist 0 statC6.owner < adjustedLower uparamsC6 statC6 := by
    rw [hm, h2]; norm_num
  refine ⟨?_, ?_, ?_, ?_⟩
  · rw [adjustBounds, if_pos hco, if_pos hlt]
  · rw [adjustBounds, if_pos hco, if_pos hlt]
  · rw [adjustBoundsClaim, if_pos hco, if_pos hlt, if_neg hmge]; rfl
  · rw [adjustBoundsClaim, if_pos hco, if_pos hlt, if_neg hmge]

/-- Claim C6 (amended): for a node claiming single-cluster ownership, after
adjusting the upper bound by the owner's movement and the lower bound by
the intercluster-distance rule, if the adjusted upper bound is already
below the lower bound the node is marked statically pruned immediately with
no exact max-distance evaluation; otherwise one exact max-distance
evaluation recomputes a tight upper bound, and the node is marked
statically pruned exactly when the recomputed upper bound is below the
adjusted lower bound. -/
theorem updatetree_adjust_amended (P : UParams) (nid : ℕ) (s : TreeStat)
    (hcl : s.pruned = P.k) (how : s.owner < P.k) (hsp : s.staticPruned = false) :
    (adjustedUpper P s < adjustedLower P s →
      adjustBounds P nid s =
        ({ s with upperBound := adjustedUpper P s, lowerBound := adjustedLower P s,
                  staticPruned := true }, 0)) ∧
    (¬ adjustedUpper P s < adjustedLower P s →
      (adjustBounds P nid s).2 = 1 ∧
      (adjustBounds P nid s).1.upperBound = P.maxDist nid s.owner ∧
      ((adjustBounds P nid s).1.staticPruned = true ↔
        P.maxDist nid s.owner < adjustedLower P s)) := by
  have hco : s.pruned = P.k ∧ s.owner < P.k := ⟨hcl, how⟩
  constructor
  · intro hlt
    rw [adjustBounds, if_pos hco, if_pos hlt]
  · intro hge
    by_cases hub2 : P.maxDist nid s.owner < adjustedLower P s
    · rw [adjustBounds, if_pos hco, if_neg hge, if_pos hub2]
      exact ⟨rfl, rfl, by simp [hub2]⟩
    · rw [adjustBounds, if_pos hco, if_neg hge, if_neg hub2]
      exact ⟨rfl, rfl, by simp [hsp, hub2]⟩

/-- Witness for the amended C6 theorem at the concrete C6 input. -/
theorem updatetree_adjust_amended_witness :
    statC6.pruned = uparamsC6.k ∧ statC6.owner < uparamsC6.k ∧
      statC6.staticPruned = false ∧
      ((adjustedUpper uparamsC6 statC6 < adjustedLower uparamsC6 statC6 →
        adjustBounds uparamsC6 0 statC6 =
          ({ statC6 with upperBound := adjustedUpper uparamsC6 statC6,
                          lowerBound := adjustedLower uparamsC6 statC6,
                          staticPruned := true }, 0)) ∧
      (¬ adjustedUpper uparamsC6 statC6 < adjustedLower uparamsC6 statC6 →
        (adjustBounds uparamsC6 0 statC6).2 = 1 ∧
        (adjustBounds uparamsC6 0 statC6).1.upperBound = uparamsC6.maxDist 0 statC6.owner ∧
        ((adjustBounds uparamsC6 0 statC6).1.staticPruned = true ↔
          uparamsC6.maxDist 0 statC6.owner < adjustedLower uparamsC6 statC6))) :=
  ⟨rfl, Nat.zero_lt_one, rfl,
    updatetree_adjust_amended uparamsC6 0 statC6 rfl Nat.zero_lt_one rfl⟩


/-! ### Cluster normalization in Iterate (dtnn_kmeans_impl.hpp, lines 161-193)

After ExtractCentroids has accumulated per-cluster sums (in newCentroids)
and counts, Iterate normalizes each cluster, computes per-cluster movements
and the residual.  Clusters with zero assigned points get a DBL_MAX
sentinel column and zero movement, and contribute nothing to the residual.
Iterate returns sqrt(residual); the square root, a monotone function of
the accumulated value, is not modelled. -/

structure IterParams where
  k : ℕ
  dims : ℕ
  rearranges : Bool
  oldFromNew : ℕ → ℕ
  centroids : ℕ → List ℚ
  dist : List ℚ → List ℚ → ℚ

/-- The mapping to the old cluster, if necessary (the ternary on the
RearrangesDataset trait). -/
def oldOf (P : IterParams) (c : ℕ) : ℕ :=
  if P.rearranges then P.oldFromNew c else c

/-- Column division by a count (newCentroids.col(old) /= counts(old)). -/
def divCol (col : List ℚ) (n : ℕ) : List ℚ :=
  col.map (fun x => x / (n : ℚ))

/-- Movement of cluster c, expressed against the original accumulated sums:
metric.Evaluate(centroids.col(c), newCentroids.col(old) / counts(old)). -/
def movementOf (P : IterParams) (sums : ℕ → List ℚ) (counts : ℕ → ℕ) (c : ℕ) : ℚ :=
  P.dist (P.centroids c) (divCol (sums (oldOf P c)) (counts (oldOf P c)))

/-- State threaded through the normalization loop: the newCentroids matrix
(initially the accumulated sums, mutated in place), the clusterDistances
vector (index k holds the running maximum movement) and the residual. -/
structure NormState where
  newCentroids : ℕ → List ℚ
  clusterDistances : ℕ → ℚ
  residual : ℚ

/-- One pass of the loop body for cluster c. -/
def normalizeStep (P : IterParams) (counts : ℕ → ℕ) (st : NormState) (c : ℕ) :
    NormState :=
  if counts (oldOf P c) = 0 then
    { st with
      newCentroids := Function.update st.newCentroids (oldOf P c)
        (List.replicate P.dims DBL_MAX),
      clusterDistances := Function.update st.clusterDistances (oldOf P c) 0 }
  else
    let col := divCol (st.newCentroids (oldOf P c)) (counts (oldOf P c))
    let movement := P.dist (P.centroids c) col
    let cd1 := Function.update st.clusterDistances (oldOf P c) movement
    { newCentroids := Function.update st.newCentroids (oldOf P c) col,
      clusterDistances := if movement > cd1 P.k then Function.update cd1 P.k movement else cd1,
      residual := st.residual + movement ^ 2 }

/-- The whole normalization loop.  clusterDistances[k] is zeroed before the
loop, residual starts at 0, newCentroids starts at the accumulated sums. -/
def normalizeClusters (P : IterParams) (counts : ℕ → ℕ) (sums : ℕ → List ℚ)
    (cd0 : ℕ → ℚ) : NormState :=
  (List.range P.k).foldl (normalizeStep P counts)
    { newCentroids := sums,
      clusterDistances := Function.update cd0 P.k 0,
      residual := 0 }

/-- The residual restricted to clusters with a nonzero count. -/
def residualSpec (P : IterParams) (counts : ℕ → ℕ) (sums : ℕ → List ℚ) : ℚ :=
  (((List.range P.k).filter (fun c => counts (oldOf P c) ≠ 0)).map
    (fun c => movementOf P sums counts c ^ 2)).sum

/-- Steps at clusters whose old index differs from j do not touch column j
of newCentroids nor entry j of clusterDistances (for j below k). -/
theorem normalize_frame (P : IterParams) (counts : ℕ → ℕ) (j : ℕ)
    (hjk : j < P.k) :
    ∀ (l : List ℕ) (st : NormState), (∀ c ∈ l, oldOf P c ≠ j) →
      ((l.foldl (normalizeStep P counts) st).newCentroids j = st.newCentroids j ∧
       (l.foldl (normalizeStep P counts) st).clusterDistances j = st.clusterDistances j) := by
  intro l
  induction l with
  | nil => intro st _; exact ⟨rfl, rfl⟩
  | cons c cs ih =>
    intro st hne
    have hcj : j ≠ oldOf P c := Ne.symm (hne c (List.mem_cons_self c cs))
    have hjkne : j ≠ P.k := Nat.ne_of_lt hjk
    have hstep : (normalizeStep P counts st c).newCentroids j = st.newCentroids j ∧
        (normalizeStep P counts st c).clusterDistances j = st.clusterDistances j := by
      simp only [normalizeStep]
      by_cases h0 : counts (oldOf P c) = 0
      · rw [if_pos h0]
        exact ⟨Function.update_noteq hcj _ _, Function.update_noteq hcj _ _⟩
      · rw [if_neg h0]
        refine ⟨Function.update_noteq hcj _ _, ?_⟩
        dsimp only
        split
        · rw [Function.update_noteq hjkne, Function.update_noteq hcj]
        · rw [Function.update_noteq hcj]
    have htail := ih (normalizeStep P counts st c)
      (fun d hd => hne d (List.mem_cons_of_mem c hd))
    rw [List.foldl_cons]
    exact ⟨htail.1.trans hstep.1, htail.2.trans hstep.2⟩

/-- If columns still hold their original sums for all pending clusters, the
residual accumulates exactly the squared movements of the nonzero-count
pending clusters. -/
theorem normalize_residual (P : IterParams) (counts : ℕ → ℕ) (sums : ℕ → List ℚ) :
    ∀ (l : List ℕ) (st : NormState),
      (l.map (oldOf P)).Nodup →
      (∀ c ∈ l, st.newCentroids (oldOf P c) = sums (oldOf P c)) →
      (l.foldl (normalizeStep P counts) st).residual =
        st.residual +
          ((l.filter (fun c => counts (oldOf P c) ≠ 0)).map
            (fun c => movementOf P sums counts c ^ 2)).sum := by
  intro l
  induction l with
  | nil => intro st _ _; simp
  | cons c cs ih =>
    intro st hnd hagree
    have hndcs : (cs.map (oldOf P)).Nodup := (List.nodup_cons.mp (by simpa using hnd)).2
    have hmemne : ∀ d ∈ cs, oldOf P d ≠ oldOf P c := by
      intro d hd heq
      exact (List.nodup_cons.mp (by simpa using hnd)).1
        (heq ▸ List.mem_map_of_mem (oldOf P) hd)
    have hc : st.newCentroids (oldOf P c) = sums (oldOf P c) :=
      hagree c (List.mem_cons_self c cs)
    have hagree2 : ∀ d ∈ cs, (normalizeStep P counts st c).newCentroids (oldOf P d) =
        sums (oldOf P d) := by
      intro d hd
      have hupd : (normalizeStep P counts st c).newCentroids (oldOf P d) =
          st.newCentroids (oldOf P d) := by
        simp only [normalizeStep]
        by_cases h0 : counts (oldOf P c) = 0
        · rw [if_pos h0]
          exact Function.update_noteq (hmemne d hd) _ _
        · rw [if_neg h0]
          exact Function.update_noteq (hmemne d hd) _ _
      rw [hupd]
      exact hagree d (List.mem_cons_of_mem c hd)
    have htail := ih (normalizeStep P counts st c) hndcs hagree2
    rw [List.foldl_cons, htail]
    by_cases h0 : counts (oldOf P c) = 0
    · have hres : (normalizeStep P counts st c).residual = st.residual := by
        simp only [normalizeStep]; rw [if_pos h0]
      rw [hres]
      simp [h0]
    · have hres : (normalizeStep P counts st c).residual =
          st.residual + movementOf P sums counts c ^ 2 := by
        simp only [normalizeStep]
        rw [if_neg h0]
        dsimp only
        rw [hc]
        rfl
      rw [hres]
      simp [h0, add_assoc]

/-- Claim C8: a cluster j that receives zero points in an Iterate call is
not a failure: the loop writes the DBL_MAX sentinel into its output
centroid column, records its movement as 0, leaves its zero count alone,
and the residual equals the sum of squared movements over only the
clusters with nonzero counts (Iterate then returns its square root). -/
theorem iterate_empty_cluster (P : IterParams) (counts : ℕ → ℕ)
    (sums : ℕ → List ℚ) (cd0 : ℕ → ℚ) (j : ℕ)
    (hnd : ((List.range P.k).map (oldOf P)).Nodup)
    (hlt : ∀ c ∈ List.range P.k, oldOf P c < P.k)
    (hj : j ∈ (List.range P.k).map (oldOf P))
    (hcount : counts j = 0) :
    (normalizeClusters P counts sums cd0).newCentroids j =
        List.replicate P.dims DBL_MAX ∧
      (normalizeClusters P counts sums cd0).clusterDistances j = 0 ∧
      counts j = 0 ∧
      (normalizeClusters P counts sums cd0).residual =
        residualSpec P counts sums := by
  obtain ⟨c0, hc0mem, hc0⟩ := List.mem_map.mp hj
  have hjk : j < P.k := hc0 ▸ hlt c0 hc0mem
  obtain ⟨l1, l2, hsplit⟩ := List.append_of_mem hc0mem
  have hndsplit : ((l1 ++ c0 :: l2).map (oldOf P)).Nodup := by rw [← hsplit]; exact hnd
  rw [List.map_append, List.map_cons, List.nodup_append] at hndsplit
  obtain ⟨hnd1, hnd2, hdisj⟩ := hndsplit
  have hl1 : ∀ c ∈ l1, oldOf P c ≠ j := by
    intro c hcl heq
    exact hdisj (List.mem_map_of_mem (oldOf P) hcl)
      (by rw [heq, ← hc0]; exact List.mem_cons_self _ _)
  have hl2 : ∀ c ∈ l2, oldOf P c ≠ j := by
    intro c hcl heq
    exact (List.nodup_cons.mp hnd2).1
      (by rw [hc0, ← heq]; exact List.mem_map_of_mem (oldOf P) hcl)
  have hfold : normalizeClusters P counts sums cd0 =
      (c0 :: l2).foldl (normalizeStep P counts)
        (l1.foldl (normalizeStep P counts)
          { newCentroids := sums,
            clusterDistances := Function.update cd0 P.k 0,
            residual := 0 }) := by
    unfold normalizeClusters
    rw [hsplit, List.foldl_append]
  set st0 : NormState :=
    { newCentroids := sums, clusterDistances := Function.update cd0 P.k 0,
      residual := 0 } with hst0
  set st1 := l1.foldl (normalizeStep P counts) st0 with hst1
  have hframe1 := normalize_frame P counts j hjk l1 st0 hl1
  have hcold : counts (oldOf P c0) = 0 := by rw [hc0]; exact hcount
  have hstep0 : (normalizeStep P counts st1 c0).newCentroids j =
        List.replicate P.dims DBL_MAX ∧
      (normalizeStep P counts st1 c0).clusterDistances j = 0 := by
    simp only [normalizeStep]
    rw [if_pos hcold, hc0]
    exact ⟨Function.update_same _ _ _, Function.update_same _ _ _⟩
  have hframe2 := normalize_frame P counts j hjk l2 (normalizeStep P counts st1 c0) hl2
  refine ⟨?_, ?_, hcount, ?_⟩
  · rw [hfold, List.foldl_cons]
    exact hframe2.1.trans hstep0.1
  · rw [hfold, List.foldl_cons]
    exact hframe2.2.trans hstep0.2
  · have := normalize_residual P counts sums (List.range P.k) st0 hnd
      (fun c _ => rfl)
    unfold normalizeClusters residualSpec
    rw [this]
    simp

/-- Concrete C8 data: 2 clusters in 1 dimension, identity mapping, cluster
1 empty. -/
def iterParamsC8 : IterParams where
  k := 2
  dims := 1
  rearranges := false
  oldFromNew := fun c => c
  centroids := fun _ => [0]
  dist := fun _ _ => 0

/-- Witness for the C8 theorem: cluster 1 has zero count. -/
theorem iterate_empty_cluster_witness :
    (((List.range iterParamsC8.k).map (oldOf iterParamsC8)).Nodup ∧
      (∀ c ∈ List.range iterParamsC8.k, oldOf iterParamsC8 c < iterParamsC8.k) ∧
      1 ∈ (List.range iterParamsC8.k).map (oldOf iterParamsC8) ∧
      (fun c => if c = 0 then 3 else 0) 1 = 0) ∧
    ((normalizeClusters iterParamsC8 (fun c => if c = 0 then 3 else 0)
        (fun _ => [0]) (fun _ => 0)).newCentroids 1 =
        List.replicate iterParamsC8.dims DBL_MAX ∧
      (normalizeClusters iterParamsC8 (fun c => if c = 0 then 3 else 0)
        (fun _ => [0]) (fun _ => 0)).clusterDistances 1 = 0 ∧
      (fun c => if c = 0 then 3 else 0) 1 = 0 ∧
      (normalizeClusters iterParamsC8 (fun c => if c = 0 then 3 else 0)
        (fun _ => [0]) (fun _ => 0)).residual =
        residualSpec iterParamsC8 (fun c => if c = 0 then 3 else 0) (fun _ => [0])) :=
  ⟨⟨by decide, by decide, by decide, rfl⟩,
    iterate_empty_cluster iterParamsC8 (fun c => if c = 0 then 3 else 0)
      (fun _ => [0]) (fun _ => 0) 1 (by decide) (by decide) (by decide) rfl⟩


/-! ### CoalesceTree / DecoalesceTree (dtnn_kmeans_impl.hpp, lines 498-557)

Trees are modelled by node identifiers carrying immutable structure (the
shape the tree was built with), while the mutable parent/child pointers
live in a Links store keyed by node id.  The statistic fields TrueParent,
TrueLeft and TrueRight are not part of the snapshot (the DTNN statistic
header is missing); modelled from the spec: before splicing, each node's
true parent/children pointers are saved into its statistic at construction
time, so DecoalesceTree restores from the original link table. -/

inductive BTree where
  | leaf (id : ℕ)
  | node (id : ℕ) (left : BTree) (right : BTree)
  deriving Repr, DecidableEq

/-- Identifier of the root node of a (sub)tree. -/
def BTree.rootId : BTree → ℕ
  | .leaf i => i
  | .node i _ _ => i

/-- All node identifiers of a tree. -/
def BTree.ids : BTree → List ℕ
  | .leaf i => [i]
  | .node i l r => i :: (l.ids ++ r.ids)

/-- The mutable parent/children pointers of every node. -/
structure Links where
  parent : ℕ → Option ℕ
  leftChild : ℕ → Option ℕ
  rightChild : ℕ → Option ℕ

/-- Record the true structure of a subtree into a link table. -/
def linksFor : BTree → Option ℕ → Links → Links
  | .leaf i, par, L =>
      { parent := Function.update L.parent i par,
        leftChild := Function.update L.leftChild i none,
        rightChild := Function.update L.rightChild i none }
  | .node i l r, par, L =>
      let L1 : Links :=
        { parent := Function.update L.parent i par,
          leftChild := Function.update L.leftChild i (some l.rootId),
          rightChild := Function.update L.rightChild i (some r.rootId) }
      linksFor r (some i) (linksFor l (some i) L1)

/-- The all-empty link table. -/
def emptyLinks : Links :=
  { parent := fun _ => none, leftChild := fun _ => none, rightChild := fun _ => none }

/-- The true (as-built) pointer structure of a tree; this is also what each
node's statistic saves as TrueParent/TrueLeft/TrueRight. -/
def trueLinks (t : BTree) : Links := linksFor t none emptyLinks

/-- Write one child pointer of a parent (node.Parent()->ChildPtr(child)). -/
def setChildPtr (L : Links) (pid : ℕ) (childIdx : ℕ) (v : Option ℕ) : Links :=
  if childIdx = 0 then { L with leftChild := Function.update L.leftChild pid v }
  else { L with rightChild := Function.update L.rightChild pid v }

/-- CoalesceTree (dtnn_kmeans_impl.hpp lines 498-543).  The recursion
follows the true tree shape: the code reads node.Child(i) before any splice
can modify that slot, and splices only rewire links of already-processed
leftward or deeper regions.  childIdx records which child of its parent the
current node is, as in the source. -/
def coalesceTree (pruned : ℕ → Bool) : BTree → ℕ → Links → Links
  | .leaf _, _, L => L
  | .node nid cl cr, childIdx, L =>
    match L.parent nid with
    | none => coalesceTree pruned cr 1 (coalesceTree pruned cl 0 L)
    | some pid =>
      if pruned cl.rootId ∧ ¬ pruned cr.rootId then
        let L1 := coalesceTree pruned cr 1 L
        let c1 := (L1.rightChild nid).getD nid
        let L2 := { L1 with parent := Function.update L1.parent c1 (some pid) }
        setChildPtr L2 pid childIdx (L2.rightChild nid)
      else if ¬ pruned cl.rootId ∧ pruned cr.rootId then
        let L1 := coalesceTree pruned cl 0 L
        let c0 := (L1.leftChild nid).getD nid
        let L2 := { L1 with parent := Function.update L1.parent c0 (some pid) }
        setChildPtr L2 pid childIdx (L2.leftChild nid)
      else if ¬ pruned cl.rootId ∧ ¬ pruned cr.rootId then
        coalesceTree pruned cr 1 (coalesceTree pruned cl 0 L)
      else L

/-- DecoalesceTree (dtnn_kmeans_impl.hpp lines 545-557): every node's
pointers are restored from the saved true values, then the recursion
descends into the (now true) children. -/
def decoalesceTree (orig : Links) : BTree → Links → Links
  | .leaf nid, L =>
      { parent := Function.update L.parent nid (orig.parent nid),
        leftChild := Function.update L.leftChild nid (orig.leftChild nid),
        rightChild := Function.update L.rightChild nid (orig.rightChild nid) }
  | .node nid cl cr, L =>
      let L1 : Links :=
        { parent := Function.update L.parent nid (orig.parent nid),
          leftChild := Function.update L.leftChild nid (orig.leftChild nid),
          rightChild := Function.update L.rightChild nid (orig.rightChild nid) }
      decoalesceTree orig cr (decoalesceTree orig cl L1)

/-- DecoalesceTree leaves nodes outside the subtree untouched. -/
theorem decoalesce_frame (orig : Links) :
    ∀ (t : BTree) (L : Links) (n : ℕ), n ∉ t.ids →
      ((decoalesceTree orig t L).parent n = L.parent n ∧
       (decoalesceTree orig t L).leftChild n = L.leftChild n ∧
       (decoalesceTree orig t L).rightChild n = L.rightChild n) := by
  intro t
  induction t with
  | leaf i =>
    intro L n hn
    have hni : n ≠ i := by
      intro h; exact hn (by rw [h]; exact List.mem_singleton_self i)
    exact ⟨Function.update_noteq hni _ _, Function.update_noteq hni _ _,
      Function.update_noteq hni _ _⟩
  | node i lt rt ihl ihr =>
    intro L n hn
    have hni : n ≠ i := by
      intro h; exact hn (by rw [h]; exact List.mem_cons_self _ _)
    have hnl : n ∉ lt.ids := by
      intro h
      exact hn (List.mem_cons_of_mem _ (List.mem_append_left _ h))
    have hnr : n ∉ rt.ids := by
      intro h
      exact hn (List.mem_cons_of_mem _ (List.mem_append_right _ h))
    simp only [decoalesceTree]
    set L1 : Links :=
      { parent := Function.update L.parent i (orig.parent i),
        leftChild := Function.update L.leftChild i (orig.leftChild i),
        rightChild := Function.update L.rightChild i (orig.rightChild i) } with hL1
    have h1 := ihl L1 n hnl
    have h2 := ihr (decoalesceTree orig lt L1) n hnr
    refine ⟨?_, ?_, ?_⟩
    · rw [h2.1, h1.1]; exact Function.update_noteq hni _ _
    · rw [h2.2.1, h1.2.1]; exact Function.update_noteq hni _ _
    · rw [h2.2.2, h1.2.2]; exact Function.update_noteq hni _ _

/-- DecoalesceTree restores every node of the subtree to its saved
pointers, whatever state the links are in when it starts. -/
theorem decoalesce_restores (orig : Links) :
    ∀ (t : BTree) (L : Links), t.ids.Nodup →
      ∀ n ∈ t.ids,
        ((decoalesceTree orig t L).parent n = orig.parent n ∧
         (decoalesceTree orig t L).leftChild n = orig.leftChild n ∧
         (decoalesceTree orig t L).rightChild n = orig.rightChild n) := by
  intro t
  induction t with
  | leaf i =>
    intro L _ n hn
    have hni : n = i := List.mem_singleton.mp hn
    subst hni
    exact ⟨Function.update_same _ _ _, Function.update_same _ _ _,
      Function.update_same _ _ _⟩
  | node i lt rt ihl ihr =>
    intro L hnd n hn
    have hnd' := List.nodup_cons.mp hnd
    have hndlr := List.nodup_append.mp hnd'.2
    simp only [decoalesceTree]
    set L1 : Links :=
      { parent := Function.update L.parent i (orig.parent i),
        leftChild := Function.update L.leftChild i (orig.leftChild i),
        rightChild := Function.update L.rightChild i (orig.rightChild i) } with hL1
    rcases List.mem_cons.mp hn with hni | hmem
    · subst hni
      have hnl : n ∉ lt.ids := fun h =>
        hnd'.1 (List.mem_append_left _ h)
      have hnr : n ∉ rt.ids := fun h =>
        hnd'.1 (List.mem_append_right _ h)
      have h1 := decoalesce_frame orig lt L1 n hnl
      have h2 := decoalesce_frame orig rt (decoalesceTree orig lt L1) n hnr
      refine ⟨?_, ?_, ?_⟩
      · rw [h2.1, h1.1]; exact Function.update_same _ _ _
      · rw [h2.2.1, h1.2.1]; exact Function.update_same _ _ _
      · rw [h2.2.2, h1.2.2]; exact Function.update_same _ _ _
    · rcases List.mem_append.mp hmem with hml | hmr
      · have hnr : n ∉ rt.ids := fun h => hndlr.2.2 hml h
        have h1 := ihl L1 hndlr.1 n hml
        have h2 := decoalesce_frame orig rt (decoalesceTree orig lt L1) n hnr
        exact ⟨h2.1.trans h1.1, h2.2.1.trans h1.2.1, h2.2.2.trans h1.2.2⟩
      · exact ihr (decoalesceTree orig lt L1) hndlr.2.1 n hmr

/-- Claim C4: running DecoalesceTree after CoalesceTree restores the
original parent and child pointers of every node of the tree exactly
(pointer identity), the true pointers having been saved per node before
any splicing (here: the trueLinks table, which CoalesceTree never
modifies).  The restoration holds for every pruning marking. -/
theorem coalesce_decoalesce_roundtrip (t : BTree) (pruned : ℕ → Bool)
    (hnd : t.ids.Nodup) :
    ∀ n ∈ t.ids,
      ((decoalesceTree (trueLinks t) t
          (coalesceTree pruned t 0 (trueLinks t))).parent n = (trueLinks t).parent n ∧
       (decoalesceTree (trueLinks t) t
          (coalesceTree pruned t 0 (trueLinks t))).leftChild n = (trueLinks t).leftChild n ∧
       (decoalesceTree (trueLinks t) t
          (coalesceTree pruned t 0 (trueLinks t))).rightChild n = (trueLinks t).rightChild n) :=
  fun n hn =>
    decoalesce_restores (trueLinks t) t (coalesceTree pruned t 0 (trueLinks t)) hnd n hn

/-- A concrete tree for the C4 witness: ids 0..4, right subtree's left
child marked statically pruned. -/
def btreeC4 : BTree :=
  BTree.node 0 (BTree.leaf 1) (BTree.node 2 (BTree.leaf 3) (BTree.leaf 4))

/-- Witness for the C4 round-trip theorem on the concrete tree, with node 3
marked pruned (so the coalesce pass actually splices node 2 out). -/
theorem coalesce_decoalesce_roundtrip_witness :
    btreeC4.ids.Nodup ∧ 2 ∈ btreeC4.ids ∧
      ((decoalesceTree (trueLinks btreeC4) btreeC4
          (coalesceTree (fun n => n = 3) btreeC4 0 (trueLinks btreeC4))).parent 2 =
        (trueLinks btreeC4).parent 2 ∧
       (decoalesceTree (trueLinks btreeC4) btreeC4
          (coalesceTree (fun n => n = 3) btreeC4 0 (trueLinks btreeC4))).leftChild 2 =
        (trueLinks btreeC4).leftChild 2 ∧
       (decoalesceTree (trueLinks btreeC4) btreeC4
          (coalesceTree (fun n => n = 3) btreeC4 0 (trueLinks btreeC4))).rightChild 2 =
        (trueLinks btreeC4).rightChild 2) :=
  ⟨by decide, by decide,
    coalesce_decoalesce_roundtrip btreeC4 (fun n => n = 3) (by decide) 2 (by decide)⟩


/-! ### DualTreeKMeansRules (dual_tree_kmeans_rules_impl.hpp)

The traversal rules are embedded as a state machine.  One traversal is a
sequence of events: Score(queryNode, referenceNode) calls and
BaseCase(queryIndex, referenceIndex) calls, performed in the order chosen
by the (external) traversal engine.  Reference-tree nodes are identified by
indices into a statistics store; each score event carries the identity i of
the reference node, the identity pidx of its parent (for the
ClustersPruned inheritance), the descendant centroid list of the query
node, the descendant point list of the reference node, and the two ends of
referenceNode.RangeDistance(queryNode).  Base-case events carry the
identity of the enclosing reference leaf (the traversal info's last
reference node), the query (centroid) index and the reference (point)
index.

Ghost fields (commits, visitedSets, prunedSets) record, without influencing
control flow, how many times each point's contribution was committed to the
new centroid sums, which centroids were base-cased against each point, and
which query-node descendant sets were Pelleg-Moore pruned at a node
containing each point. -/

structure NodeStat where
  minQueryNodeDistance : ℚ
  maxQueryNodeDistance : ℚ
  secondMinQueryNodeDistance : ℚ
  secondMaxQueryNodeDistance : ℚ
  clustersPruned : ℕ
  hamerlyPruned : Bool
  owner : ℕ
  deriving Repr, DecidableEq

/-- Statistic as built by the DualTreeKMeansStatistic constructor: all
query-node distances DBL_MAX, ClustersPruned = size_t(-1).  The snapshot's
statistic has no HamerlyPruned field (the rules read one from a newer
revision); it starts false, matching an iteration in which UpdateTree has
not marked anything. -/
def freshStat : NodeStat where
  minQueryNodeDistance := DBL_MAX
  maxQueryNodeDistance := DBL_MAX
  secondMinQueryNodeDistance := DBL_MAX
  secondMaxQueryNodeDistance := DBL_MAX
  clustersPruned := SIZE_MAX
  hamerlyPruned := false
  owner := 0

/-- Fixed data of one traversal: number of centroids k, the iteration
counter, the tree-to-original centroid index mapping, and the metric
dist q r = metric.Evaluate(centroids.col(q), dataset.col(r)). -/
structure RulesParams where
  k : ℕ
  iteration : ℕ
  mappings : ℕ → ℕ
  dist : ℕ → ℕ → ℚ

/-- Mutable state of the rules object plus ghost accounting. -/
structure RulesState where
  stats : ℕ → NodeStat
  distances : ℕ → ℚ
  assignments : ℕ → ℕ
  visited : ℕ → ℕ
  distanceIteration : ℕ → ℕ
  commits : ℕ → ℕ
  visitedSets : ℕ → List ℕ
  prunedSets : ℕ → List (List ℕ)

/-- Add one committed contribution for every point of a reference node
(the ghost image of adding columns into newCentroids and bumping counts). -/
def bumpCommits (l : List ℕ) (f : ℕ → ℕ) : ℕ → ℕ :=
  l.foldl (fun g r => Function.update g r (g r + 1)) f

/-- BaseCase (dual_tree_kmeans_rules_impl.hpp lines 48-96).  i is the
reference leaf the traversal info points at. -/
def baseCaseStep (P : RulesParams) (st : RulesState) (i q r : ℕ) : RulesState :=
  if (st.stats i).clustersPruned + st.visited r = P.k then st
  else
    let dist := P.dist q r
    let st1 :=
      if st.distanceIteration r < P.iteration then
        { st with
          distanceIteration := Function.update st.distanceIteration r P.iteration,
          distances := Function.update st.distances r dist,
          assignments := Function.update st.assignments r (P.mappings q) }
      else if dist < st.distances r then
        { st with
          distances := Function.update st.distances r dist,
          assignments := Function.update st.assignments r (P.mappings q) }
      else st
    let st2 :=
      { st1 with
        visited := Function.update st1.visited r (st.visited r + 1),
        visitedSets := Function.update st1.visitedSets r (q :: st1.visitedSets r) }
    if st.visited r + 1 + (st.stats i).clustersPruned = P.k then
      { st2 with commits := Function.update st2.commits r (st2.commits r + 1) }
    else st2

/-- The ClustersPruned inheritance at the top of Score: a counter still at
size_t(-1) is initialized from the parent. -/
def inheritStat (st : RulesState) (i pidx : ℕ) : NodeStat :=
  if (st.stats i).clustersPruned = SIZE_MAX then
    { st.stats i with clustersPruned := (st.stats pidx).clustersPruned }
  else st.stats i

/-- Score(queryNode, referenceNode) (dual_tree_kmeans_rules_impl.hpp lines
108-186).  qdesc lists the centroids descending from the query node,
refDesc the points descending from the reference node (refDesc.headD 0 is
referenceNode.Descendant(0)), lo and hi are the range distance ends.  The
Hamerly one-shot bulk commit adds NumDescendants point contributions
through the node centroid, recorded per descendant in the ghost field. -/
def scoreStep (P : RulesParams) (st : RulesState) (i pidx : ℕ)
    (qdesc refDesc : List ℕ) (lo hi : ℚ) : RulesState :=
  let s := inheritStat st i pidx
  if s.hamerlyPruned then
    if s.minQueryNodeDistance = DBL_MAX then
      let snew : NodeStat := { s with minQueryNodeDistance := 0 }
      { st with
        stats := Function.update st.stats i snew,
        commits := bumpCommits refDesc st.commits }
    else
      { st with stats := Function.update st.stats i s }
  else
    if lo < s.minQueryNodeDistance then
      let snew : NodeStat :=
        { s with
          secondMinQueryNodeDistance := s.minQueryNodeDistance,
          secondMaxQueryNodeDistance := s.maxQueryNodeDistance,
          minQueryNodeDistance := lo,
          maxQueryNodeDistance := hi }
      { st with stats := Function.update st.stats i snew }
    else if lo < s.secondMinQueryNodeDistance then
      let snew : NodeStat :=
        { s with
          secondMinQueryNodeDistance := lo,
          secondMaxQueryNodeDistance := hi }
      { st with stats := Function.update st.stats i snew }
    else if lo > s.secondMaxQueryNodeDistance then
      let s1 : NodeStat := { s with clustersPruned := s.clustersPruned + qdesc.length }
      let st1 : RulesState :=
        { st with
          stats := Function.update st.stats i s1,
          prunedSets := fun p =>
            if p ∈ refDesc then qdesc :: st.prunedSets p else st.prunedSets p }
      if s1.clustersPruned + st.visited (refDesc.headD 0) = P.k then
        let sown : NodeStat := { s1 with owner := st.assignments ((refDesc.getLast?).getD 0) }
        { st1 with
          stats := Function.update st1.stats i sown,
          commits := bumpCommits refDesc st1.commits }
      else st1
    else
      { st with stats := Function.update st.stats i s }

/-- One traversal event: either a node-pair score or a point-pair base
case. -/
inductive REvent where
  | score (i pidx : ℕ) (qdesc refDesc : List ℕ) (lo hi : ℚ)
  | base (i q r : ℕ)
  deriving Repr

/-- Process one event. -/
def ruleStep (P : RulesParams) (st : RulesState) : REvent → RulesState
  | .score i pidx qdesc refDesc lo hi => scoreStep P st i pidx qdesc refDesc lo hi
  | .base i q r => baseCaseStep P st i q r

/-- One whole traversal, as a fold over its event sequence. -/
def runRules (P : RulesParams) (evs : List REvent) (st : RulesState) : RulesState :=
  evs.foldl (ruleStep P) st

/-- Brute-force nearest-centroid assignment (first index attaining the
minimum, scanning tree-order centroid indices upward). -/
def bruteForceAssignment (P : RulesParams) (p : ℕ) : ℕ :=
  (List.range P.k).foldl (fun best c => if P.dist c p < P.dist best p then c else best) 0

/-- Claim C7: once a reference node's ClustersPruned counter is initialized
(not size_t(-1)), a Score call at that node either leaves it unchanged or
raises it by exactly the scored query node's descendant count; Score never
touches other nodes' counters, and BaseCase never touches any statistic.
In particular the counter never decreases during a traversal. -/
theorem clusters_pruned_monotone (P : RulesParams) (st : RulesState)
    (i pidx : ℕ) (qdesc refDesc : List ℕ) (lo hi : ℚ) (j q r : ℕ)
    (hinit : (st.stats i).clustersPruned ≠ SIZE_MAX) :
    (((scoreStep P st i pidx qdesc refDesc lo hi).stats i).clustersPruned =
        (st.stats i).clustersPruned ∨
      ((scoreStep P st i pidx qdesc refDesc lo hi).stats i).clustersPruned =
        (st.stats i).clustersPruned + qdesc.length) ∧
    (st.stats i).clustersPruned ≤
      ((scoreStep P st i pidx qdesc refDesc lo hi).stats i).clustersPruned ∧
    (j ≠ i → (scoreStep P st i pidx qdesc refDesc lo hi).stats j = st.stats j) ∧
    (baseCaseStep P st i q r).stats = st.stats := by
  have hbase : (baseCaseStep P st i q r).stats = st.stats := by
    simp only [baseCaseStep]
    repeat' split
    all_goals rfl
  have hmain : (((scoreStep P st i pidx qdesc refDesc lo hi).stats i).clustersPruned =
        (st.stats i).clustersPruned ∨
      ((scoreStep P st i pidx qdesc refDesc lo hi).stats i).clustersPruned =
        (st.stats i).clustersPruned + qdesc.length) ∧
      (j ≠ i → (scoreStep P st i pidx qdesc refDesc lo hi).stats j = st.stats j) := by
    simp only [scoreStep, inheritStat, if_neg hinit]
    repeat' split
    all_goals
      refine ⟨?_, fun hj => by simp [Function.update_noteq hj]⟩
    all_goals
      first
        | (left; simp; done)
        | (right; simp)
  refine ⟨hmain.1, ?_, hmain.2, hbase⟩
  rcases hmain.1 with h | h
  · rw [h]
  · rw [h]; exact Nat.le_add_right _ _

/-- A simple initialized state for the C7 witness: every statistic has
ClustersPruned 0 (as the driver sets on the root), fresh otherwise. -/
def rstateC7 : RulesState where
  stats := fun _ => { freshStat with clustersPruned := 0 }
  distances := fun _ => 0
  assignments := fun _ => 0
  visited := fun _ => 0
  distanceIteration := fun _ => 0
  commits := fun _ => 0
  visitedSets := fun _ => []
  prunedSets := fun _ => []

/-- Parameters for the C7 witness: 2 centroids, identity mapping. -/
def rparamsC7 : RulesParams where
  k := 2
  iteration := 1
  mappings := fun c => c
  dist := fun _ _ => 1

/-- Witness for the C7 theorem at a concrete initialized node. -/
theorem clusters_pruned_monotone_witness :
    (rstateC7.stats 0).clustersPruned ≠ SIZE_MAX ∧
      ((((scoreStep rparamsC7 rstateC7 0 0 [0] [0] 1 2).stats 0).clustersPruned =
          (rstateC7.stats 0).clustersPruned ∨
        (((scoreStep rparamsC7 rstateC7 0 0 [0] [0] 1 2).stats 0).clustersPruned =
          (rstateC7.stats 0).clustersPruned + [0].length)) ∧
      (rstateC7.stats 0).clustersPruned ≤
        ((scoreStep rparamsC7 rstateC7 0 0 [0] [0] 1 2).stats 0).clustersPruned ∧
      ((3 : ℕ) ≠ 0 → (scoreStep rparamsC7 rstateC7 0 0 [0] [0] 1 2).stats 3 = rstateC7.stats 3) ∧
      (baseCaseStep rparamsC7 rstateC7 0 0 0).stats = rstateC7.stats) :=
  ⟨by decide,
    clusters_pruned_monotone rparamsC7 rstateC7 0 0 [0] [0] 1 2 3 0 0 (by decide)⟩


/-! ### Claim C1: dual-tree assignments versus brute force.

The initial rules state: statistics as constructed (fresh), with the
driver's explicit ClustersPruned = 0 on the reference root; per-point
distances unset (the iteration marker is behind), nothing visited. -/

def initialRulesState (rootIdx : ℕ) : RulesState where
  stats := Function.update (fun _ => freshStat) rootIdx
    { freshStat with clustersPruned := 0 }
  distances := fun _ => DBL_MAX
  assignments := fun _ => SIZE_MAX
  visited := fun _ => 0
  distanceIteration := fun _ => 0
  commits := fun _ => 0
  visitedSets := fun _ => []
  prunedSets := fun _ => []

/-- Concrete C1 data: two centroids (at coordinates 0 and 2, in tree
order), one data point (at coordinate 1), equidistant from both. -/
def rparamsC1 : RulesParams where
  k := 2
  iteration := 1
  mappings := fun c => c
  dist := fun _ _ => 1

/-- A complete, prune-free traversal of the single-leaf reference tree
(node 0, the root) against the centroid tree: the root pair is scored,
then the two centroid leaves, with centroid 1 base-cased first. -/
def eventsC1 : List REvent :=
  [REvent.score 0 0 [0, 1] [0] 0 1,
   REvent.score 0 0 [1] [0] 1 1,
   REvent.base 0 1 0,
   REvent.score 0 0 [0] [0] 1 1,
   REvent.base 0 0 0]

/-- Claim C1 counterexample: on a tie, the dual-tree base cases keep the
first centroid visited (tree order of the traversal), while brute force
keeps the lowest index.  After this complete, conforming, prune-free
traversal both centroids have been base-cased against point 0 (visited set
[0, 1]), the two distances are equal, yet the final assignment is centroid
1 whereas the brute-force nearest-centroid assignment is centroid 0.  So
the assignment produced by a dual-tree iteration is not always equal to
the brute-force assignment. -/
theorem dualtree_assignment_tie_counterexample :
    (runRules rparamsC1 eventsC1 (initialRulesState 0)).assignments 0 = 1 ∧
      bruteForceAssignment rparamsC1 0 = 0 ∧
      rparamsC1.dist 0 0 = rparamsC1.dist 1 0 ∧
      (runRules rparamsC1 eventsC1 (initialRulesState 0)).visitedSets 0 = [0, 1] ∧
      (runRules rparamsC1 eventsC1 (initialRulesState 0)).prunedSets 0 = [] := by
  decide

/-- Structural and geometric side conditions of one traversal event with
respect to a distinguished reference point p and the list A of identities
of reference nodes whose descendant set contains p: score events touch a
node of A exactly when p is among the reference descendants, and then the
reported range-distance ends really bound the distance from p to every
centroid of the scored query node.  Base cases hand p valid centroid
indices.  These conditions are what the (external) traversal engine and
the tree geometry guarantee. -/
def eventOK (P : RulesParams) (A : List ℕ) (p : ℕ) : REvent → Prop
  | REvent.score i _ qdesc refDesc lo hi =>
      (i ∈ A ↔ p ∈ refDesc) ∧
      (i ∈ A → qdesc ≠ [] ∧ ∀ c ∈ qdesc, c < P.k ∧ lo ≤ P.dist c p ∧ P.dist c p ≤ hi)
  | REvent.base _ q r => r = p → q < P.k

/-- A cached node-to-query-node distance bound is either still the DBL_MAX
sentinel or is witnessed by a nonempty set of centroids within it. -/
def boundWitness (P : RulesParams) (p : ℕ) (b : ℚ) : Prop :=
  b = DBL_MAX ∨ ∃ N : List ℕ, N ≠ [] ∧ ∀ c ∈ N, c < P.k ∧ P.dist c p ≤ b

/-- Statistic invariant at a node containing p. -/
def statInv (P : RulesParams) (p : ℕ) (s : NodeStat) : Prop :=
  s.hamerlyPruned = false ∧
    boundWitness P p s.maxQueryNodeDistance ∧
    boundWitness P p s.secondMaxQueryNodeDistance

/-- Every Pelleg-Moore-pruned centroid has a strictly closer centroid. -/
def prunedInv (P : RulesParams) (p : ℕ) (Qs : List (List ℕ)) : Prop :=
  ∀ Q ∈ Qs, ∀ c ∈ Q, c < P.k ∧ ∃ m, m < P.k ∧ P.dist m p < P.dist c p

/-- The per-point best-so-far invariant: the recorded distance is the
minimum over the centroids base-cased so far, and the recorded assignment
is the mapped index of a centroid attaining it. -/
def pointInv (P : RulesParams) (p : ℕ) (st : RulesState) : Prop :=
  (∀ c ∈ st.visitedSets p, c < P.k) ∧
  (st.visitedSets p = [] → st.distanceIteration p < P.iteration) ∧
  (st.visitedSets p ≠ [] →
    st.distanceIteration p = P.iteration ∧
    (∀ c ∈ st.visitedSets p, st.distances p ≤ P.dist c p) ∧
    (∃ c ∈ st.visitedSets p,
      P.mappings c = st.assignments p ∧ P.dist c p = st.distances p))

/-- The combined invariant carried through a traversal. -/
def runInv (P : RulesParams) (A : List ℕ) (p : ℕ) (st : RulesState) : Prop :=
  (∀ i ∈ A, statInv P p (st.stats i)) ∧
    prunedInv P p (st.prunedSets p) ∧ pointInv P p st

/-- BaseCase touches no statistic and no pruned-set ghost, and leaves every
per-point slot of points other than r unchanged. -/
theorem baseCaseStep_other (P : RulesParams) (st : RulesState) (i q r p : ℕ)
    (hrp : r ≠ p) :
    (baseCaseStep P st i q r).distances p = st.distances p ∧
      (baseCaseStep P st i q r).assignments p = st.assignments p ∧
      (baseCaseStep P st i q r).distanceIteration p = st.distanceIteration p ∧
      (baseCaseStep P st i q r).visitedSets p = st.visitedSets p := by
  have hpr : p ≠ r := Ne.symm hrp
  simp only [baseCaseStep]
  repeat' split
  all_goals simp [Function.update_noteq hpr]

/-- BaseCase leaves the statistics store and the pruned-set ghosts
unchanged. -/
theorem baseCaseStep_stats (P : RulesParams) (st : RulesState) (i q r : ℕ) :
    (baseCaseStep P st i q r).stats = st.stats ∧
      (baseCaseStep P st i q r).prunedSets = st.prunedSets := by
  simp only [baseCaseStep]
  repeat' split
  all_goals exact ⟨rfl, rfl⟩

/-- Score leaves every per-point field unchanged except commits and the
pruned-set ghosts. -/
theorem scoreStep_point_fields (P : RulesParams) (st : RulesState)
    (i pidx : ℕ) (qdesc refDesc : List ℕ) (lo hi : ℚ) :
    (scoreStep P st i pidx qdesc refDesc lo hi).distances = st.distances ∧
      (scoreStep P st i pidx qdesc refDesc lo hi).assignments = st.assignments ∧
      (scoreStep P st i pidx qdesc refDesc lo hi).distanceIteration = st.distanceIteration ∧
      (scoreStep P st i pidx qdesc refDesc lo hi).visitedSets = st.visitedSets ∧
      (scoreStep P st i pidx qdesc refDesc lo hi).visited = st.visited := by
  simp only [scoreStep]
  repeat' split
  all_goals exact ⟨rfl, rfl, rfl, rfl, rfl⟩


/-- Behaviour of BaseCase on the slots of the reference point itself, when
the early accounting return does not fire. -/
theorem baseCaseStep_spec (P : RulesParams) (st : RulesState) (i q r : ℕ)
    (hskip : ¬ ((st.stats i).clustersPruned + st.visited r = P.k)) :
    (baseCaseStep P st i q r).visitedSets r = q :: st.visitedSets r ∧
    (st.distanceIteration r < P.iteration →
      (baseCaseStep P st i q r).distances r = P.dist q r ∧
      (baseCaseStep P st i q r).assignments r = P.mappings q ∧
      (baseCaseStep P st i q r).distanceIteration r = P.iteration) ∧
    (¬ st.distanceIteration r < P.iteration →
      (baseCaseStep P st i q r).distanceIteration r = st.distanceIteration r ∧
      (P.dist q r < st.distances r →
        (baseCaseStep P st i q r).distances r = P.dist q r ∧
        (baseCaseStep P st i q r).assignments r = P.mappings q) ∧
      (¬ P.dist q r < st.distances r →
        (baseCaseStep P st i q r).distances r = st.distances r ∧
        (baseCaseStep P st i q r).assignments r = st.assignments r)) := by
  simp only [baseCaseStep, if_neg hskip]
  refine ⟨?_, ?_, ?_⟩
  · repeat' split
    all_goals simp [Function.update_same]
  · intro h1
    rw [if_pos h1]
    repeat' split
    all_goals simp [Function.update_same]
  · intro h1
    rw [if_neg h1]
    refine ⟨?_, ?_, ?_⟩
    · repeat' split
      all_goals simp [Function.update_same]
    · intro h2
      rw [if_pos h2]
      repeat' split
      all_goals simp [Function.update_same]
    · intro h2
      rw [if_neg h2]
      repeat' split
      all_goals simp [Function.update_same]

/-- Score leaves statistics of other nodes unchanged. -/
theorem scoreStep_stats_other (P : RulesParams) (st : RulesState)
    (i pidx : ℕ) (qdesc refDesc : List ℕ) (lo hi : ℚ) (j : ℕ) (hj : j ≠ i) :
    (scoreStep P st i pidx qdesc refDesc lo hi).stats j = st.stats j := by
  simp only [scoreStep]
  repeat' split
  all_goals simp [Function.update_noteq hj]

/-- Score leaves the pruned-set ghost of points outside the reference node
unchanged. -/
theorem scoreStep_prunedSets_other (P : RulesParams) (st : RulesState)
    (i pidx : ℕ) (qdesc refDesc : List ℕ) (lo hi : ℚ) (p : ℕ)
    (hp : p ∉ refDesc) :
    (scoreStep P st i pidx qdesc refDesc lo hi).prunedSets p = st.prunedSets p := by
  simp only [scoreStep]
  repeat' split
  all_goals simp [hp]

/-- Branch behaviour of Score on the scored node's statistic and on the
pruned-set ghosts, when the node is not Hamerly pruned. -/
theorem scoreStep_spec (P : RulesParams) (st : RulesState) (i pidx : ℕ)
    (qdesc refDesc : List ℕ) (lo hi : ℚ)
    (hham : (inheritStat st i pidx).hamerlyPruned = false) :
    (lo < (inheritStat st i pidx).minQueryNodeDistance →
      (scoreStep P st i pidx qdesc refDesc lo hi).stats i =
        { inheritStat st i pidx with
          secondMinQueryNodeDistance := (inheritStat st i pidx).minQueryNodeDistance,
          secondMaxQueryNodeDistance := (inheritStat st i pidx).maxQueryNodeDistance,
          minQueryNodeDistance := lo, maxQueryNodeDistance := hi } ∧
      (scoreStep P st i pidx qdesc refDesc lo hi).prunedSets = st.prunedSets) ∧
    (¬ lo < (inheritStat st i pidx).minQueryNodeDistance →
      lo < (inheritStat st i pidx).secondMinQueryNodeDistance →
      (scoreStep P st i pidx qdesc refDesc lo hi).stats i =
        { inheritStat st i pidx with
          secondMinQueryNodeDistance := lo, secondMaxQueryNodeDistance := hi } ∧
      (scoreStep P st i pidx qdesc refDesc lo hi).prunedSets = st.prunedSets) ∧
    (¬ lo < (inheritStat st i pidx).minQueryNodeDistance →
      ¬ lo < (inheritStat st i pidx).secondMinQueryNodeDistance →
      lo > (inheritStat st i pidx).secondMaxQueryNodeDistance →
      ((scoreStep P st i pidx qdesc refDesc lo hi).stats i).maxQueryNodeDistance =
          (inheritStat st i pidx).maxQueryNodeDistance ∧
      ((scoreStep P st i pidx qdesc refDesc lo hi).stats i).secondMaxQueryNodeDistance =
          (inheritStat st i pidx).secondMaxQueryNodeDistance ∧
      ((scoreStep P st i pidx qdesc refDesc lo hi).stats i).hamerlyPruned =
          (inheritStat st i pidx).hamerlyPruned ∧
      (scoreStep P st i pidx qdesc refDesc lo hi).prunedSets = fun s =>
        if s ∈ refDesc then qdesc :: st.prunedSets s else st.prunedSets s) ∧
    (¬ lo < (inheritStat st i pidx).minQueryNodeDistance →
      ¬ lo < (inheritStat st i pidx).secondMinQueryNodeDistance →
      ¬ lo > (inheritStat st i pidx).secondMaxQueryNodeDistance →
      (scoreStep P st i pidx qdesc refDesc lo hi).stats i = inheritStat st i pidx ∧
      (scoreStep P st i pidx qdesc refDesc lo hi).prunedSets = st.prunedSets) := by
  have hhamne : ¬ ((inheritStat st i pidx).hamerlyPruned = true) := by
    rw [hham]; exact Bool.false_ne_true
  refine ⟨?_, ?_, ?_, ?_⟩
  · intro h1
    simp only [scoreStep, if_neg hhamne, if_pos h1]
    exact ⟨Function.update_same _ _ _, trivial⟩
  · intro h1 h2
    simp only [scoreStep, if_neg hhamne, if_neg h1, if_pos h2]
    exact ⟨Function.update_same _ _ _, trivial⟩
  · intro h1 h2 h3
    simp only [scoreStep, if_neg hhamne, if_neg h1, if_neg h2, if_pos h3]
    split
    · refine ⟨?_, ?_, ?_, ?_⟩
      all_goals simp [Function.update_same]
    · refine ⟨?_, ?_, ?_, ?_⟩
      all_goals simp [Function.update_same]
  · intro h1 h2 h3
    simp only [scoreStep, if_neg hhamne, if_neg h1, if_neg h2, if_neg h3]
    exact ⟨Function.update_same _ _ _, trivial⟩


/-- The traversal invariant is preserved by every event that satisfies its
side conditions. -/
theorem runInv_step (P : RulesParams) (A : List ℕ) (p : ℕ) (st : RulesState)
    (ev : REvent)
    (hfin : ∀ c, c < P.k → P.dist c p < DBL_MAX)
    (hev : eventOK P A p ev) (hinv : runInv P A p st) :
    runInv P A p (ruleStep P st ev) := by
  obtain ⟨hstats, hpruned, hpt⟩ := hinv
  cases ev with
  | base i q r =>
    show runInv P A p (baseCaseStep P st i q r)
    obtain ⟨hbs, hbp⟩ := baseCaseStep_stats P st i q r
    refine ⟨fun j hj => by rw [hbs]; exact hstats j hj,
      by rw [hbp]; exact hpruned, ?_⟩
    by_cases hrp : r = p
    · subst hrp
      by_cases hskip : (st.stats i).clustersPruned + st.visited r = P.k
      · have hsame : baseCaseStep P st i q r = st := by
          simp only [baseCaseStep]; rw [if_pos hskip]
        rw [hsame]
        exact hpt
      · have hq : q < P.k := hev rfl
        obtain ⟨hvs, hfresh, hstale⟩ := baseCaseStep_spec P st i q r hskip
        refine ⟨?_, ?_, ?_⟩
        · intro c hc
          rw [hvs] at hc
          rcases List.mem_cons.mp hc with hc | hc
          · exact hc ▸ hq
          · exact hpt.1 c hc
        · intro habs
          rw [hvs] at habs
          exact absurd habs (List.cons_ne_nil _ _)
        · intro _
          by_cases hempty : st.visitedSets r = []
          · have hlt : st.distanceIteration r < P.iteration := hpt.2.1 hempty
            obtain ⟨hd, ha, hdi⟩ := hfresh hlt
            refine ⟨hdi, ?_, ?_⟩
            · intro c hc
              rw [hvs, hempty] at hc
              rcases List.mem_cons.mp hc with hc | hc
              · rw [hd, hc]
              · exact absurd hc (List.not_mem_nil c)
            · exact ⟨q, by rw [hvs]; exact List.mem_cons_self _ _,
                by rw [ha], by rw [hd]⟩
          · obtain ⟨hiter, hmin, hatt⟩ := hpt.2.2 hempty
            have hnlt : ¬ st.distanceIteration r < P.iteration := by
              rw [hiter]; exact lt_irrefl _
            obtain ⟨hdi, hcl, hncl⟩ := hstale hnlt
            refine ⟨by rw [hdi]; exact hiter, ?_, ?_⟩
            · intro c hc
              rw [hvs] at hc
              by_cases hcloser : P.dist q r < st.distances r
              · obtain ⟨hd, _⟩ := hcl hcloser
                rcases List.mem_cons.mp hc with hc | hc
                · rw [hd, hc]
                · rw [hd]
                  exact le_of_lt (lt_of_lt_of_le hcloser (hmin c hc))
              · obtain ⟨hd, _⟩ := hncl hcloser
                rcases List.mem_cons.mp hc with hc | hc
                · rw [hd, hc]; exact le_of_not_lt hcloser
                · rw [hd]; exact hmin c hc
            · by_cases hcloser : P.dist q r < st.distances r
              · obtain ⟨hd, ha⟩ := hcl hcloser
                exact ⟨q, by rw [hvs]; exact List.mem_cons_self _ _,
                  by rw [ha], by rw [hd]⟩
              · obtain ⟨hd, ha⟩ := hncl hcloser
                obtain ⟨c0, hc0m, hc0a, hc0d⟩ := hatt
                exact ⟨c0, by rw [hvs]; exact List.mem_cons_of_mem _ hc0m,
                  by rw [ha]; exact hc0a, by rw [hd]; exact hc0d⟩
    · obtain ⟨hd, ha, hdi, hvs⟩ := baseCaseStep_other P st i q r p hrp
      refine ⟨fun c hc => hpt.1 c (by rwa [hvs] at hc),
        fun he => by rw [hdi]; exact hpt.2.1 (by rwa [hvs] at he),
        fun he => ?_⟩
      obtain ⟨h1, h2, h3⟩ := hpt.2.2 (by rwa [hvs] at he)
      refine ⟨by rw [hdi]; exact h1,
        fun c hc => by rw [hd]; exact h2 c (by rwa [hvs] at hc), ?_⟩
      obtain ⟨c0, hm, hmp, hdd⟩ := h3
      exact ⟨c0, by rw [hvs]; exact hm, by rw [ha]; exact hmp,
        by rw [hd]; exact hdd⟩
  | score i pidx qdesc refDesc lo hi =>
    show runInv P A p (scoreStep P st i pidx qdesc refDesc lo hi)
    obtain ⟨hds, has, hdis, hvss, _⟩ :=
      scoreStep_point_fields P st i pidx qdesc refDesc lo hi
    obtain ⟨hiff, hbnd⟩ := hev
    have hptF : pointInv P p (scoreStep P st i pidx qdesc refDesc lo hi) := by
      refine ⟨fun c hc => hpt.1 c (by rwa [hvss] at hc),
        fun he => by rw [hdis]; exact hpt.2.1 (by rwa [hvss] at he),
        fun he => ?_⟩
      obtain ⟨h1, h2, h3⟩ := hpt.2.2 (by rwa [hvss] at he)
      refine ⟨by rw [hdis]; exact h1,
        fun c hc => by rw [hds]; exact h2 c (by rwa [hvss] at hc), ?_⟩
      obtain ⟨c0, hm, hmp, hdd⟩ := h3
      exact ⟨c0, by rw [hvss]; exact hm, by rw [has]; exact hmp,
        by rw [hds]; exact hdd⟩
    by_cases hiA : i ∈ A
    · have hpref : p ∈ refDesc := hiff.mp hiA
      obtain ⟨hqne, hqall⟩ := hbnd hiA
      have hsi := hstats i hiA
      have hsinv : statInv P p (inheritStat st i pidx) := by
        unfold inheritStat
        split
        · exact ⟨hsi.1, hsi.2.1, hsi.2.2⟩
        · exact hsi
      have hham : (inheritStat st i pidx).hamerlyPruned = false := hsinv.1
      obtain ⟨hb1, hb2, hb3, hb4⟩ :=
        scoreStep_spec P st i pidx qdesc refDesc lo hi hham
      by_cases h1 : lo < (inheritStat st i pidx).minQueryNodeDistance
      · obtain ⟨hstatEq, hprEq⟩ := hb1 h1
        refine ⟨?_, by rw [hprEq]; exact hpruned, hptF⟩
        intro j hj
        by_cases hji : j = i
        · subst hji
          rw [hstatEq]
          exact ⟨hham,
            Or.inr ⟨qdesc, hqne, fun c hc => ⟨(hqall c hc).1, (hqall c hc).2.2⟩⟩,
            hsinv.2.1⟩
        · rw [scoreStep_stats_other P st i pidx qdesc refDesc lo hi j hji]
          exact hstats j hj
      · by_cases h2 : lo < (inheritStat st i pidx).secondMinQueryNodeDistance
        · obtain ⟨hstatEq, hprEq⟩ := hb2 h1 h2
          refine ⟨?_, by rw [hprEq]; exact hpruned, hptF⟩
          intro j hj
          by_cases hji : j = i
          · subst hji
            rw [hstatEq]
            exact ⟨hham, hsinv.2.1,
              Or.inr ⟨qdesc, hqne, fun c hc => ⟨(hqall c hc).1, (hqall c hc).2.2⟩⟩⟩
          · rw [scoreStep_stats_other P st i pidx qdesc refDesc lo hi j hji]
            exact hstats j hj
        · by_cases h3 : lo > (inheritStat st i pidx).secondMaxQueryNodeDistance
          · obtain ⟨hmax, hsmax, hhamF, hprEq⟩ := hb3 h1 h2 h3
            refine ⟨?_, ?_, hptF⟩
            · intro j hj
              by_cases hji : j = i
              · subst hji
                exact ⟨by rw [hhamF]; exact hham,
                  by rw [hmax]; exact hsinv.2.1,
                  by rw [hsmax]; exact hsinv.2.2⟩
              · rw [scoreStep_stats_other P st i pidx qdesc refDesc lo hi j hji]
                exact hstats j hj
            · rw [hprEq]
              simp only [if_pos hpref]
              intro Q hQ c hc
              rcases List.mem_cons.mp hQ with hQ | hQ
              · subst hQ
                have hcq := hqall c hc
                refine ⟨hcq.1, ?_⟩
                rcases hsinv.2.2 with hdm | ⟨N, hNne, hN⟩
                · exfalso
                  have hlt : lo < DBL_MAX :=
                    lt_of_le_of_lt hcq.2.1 (hfin c hcq.1)
                  rw [hdm] at h3
                  exact lt_asymm hlt h3
                · obtain ⟨m, hmN⟩ := List.exists_mem_of_ne_nil N hNne
                  exact ⟨m, (hN m hmN).1,
                    lt_of_le_of_lt (hN m hmN).2 (lt_of_lt_of_le h3 hcq.2.1)⟩
              · exact hpruned Q hQ c hc
          · obtain ⟨hstatEq, hprEq⟩ := hb4 h1 h2 h3
            refine ⟨?_, by rw [hprEq]; exact hpruned, hptF⟩
            intro j hj
            by_cases hji : j = i
            · subst hji; rw [hstatEq]; exact hsinv
            · rw [scoreStep_stats_other P st i pidx qdesc refDesc lo hi j hji]
              exact hstats j hj
    · have hpref : p ∉ refDesc := fun h => hiA (hiff.mpr h)
      refine ⟨?_, ?_, hptF⟩
      · intro j hj
        have hji : j ≠ i := fun h => hiA (h ▸ hj)
        rw [scoreStep_stats_other P st i pidx qdesc refDesc lo hi j hji]
        exact hstats j hj
      · rw [scoreStep_prunedSets_other P st i pidx qdesc refDesc lo hi p hpref]
        exact hpruned

/-- The invariant holds after a whole traversal. -/
theorem runInv_run (P : RulesParams) (A : List ℕ) (p : ℕ)
    (hfin : ∀ c, c < P.k → P.dist c p < DBL_MAX) :
    ∀ (evs : List REvent) (st : RulesState),
      (∀ ev ∈ evs, eventOK P A p ev) → runInv P A p st →
      runInv P A p (runRules P evs st) := by
  intro evs
  induction evs with
  | nil => intro st _ h; exact h
  | cons e es ih =>
    intro st hev hinv
    exact ih (ruleStep P st e)
      (fun ev h => hev ev (List.mem_cons_of_mem _ h))
      (runInv_step P A p st e hfin (hev e (List.mem_cons_self _ _)) hinv)


/-- Every covered centroid (base-cased or pruned) has a base-cased centroid
at most as far: pruned centroids always lose, by a strictly-decreasing
chain, to some centroid that was actually evaluated. -/
theorem closer_visited (P : RulesParams) (p : ℕ) (vs : List ℕ)
    (Qs : List (List ℕ))
    (hpr : ∀ Q ∈ Qs, ∀ c ∈ Q, c < P.k ∧ ∃ m, m < P.k ∧ P.dist m p < P.dist c p)
    (hcov : ∀ c, c < P.k → c ∈ vs ∨ ∃ Q ∈ Qs, c ∈ Q) :
    ∀ c, c < P.k → ∃ m, m ∈ vs ∧ P.dist m p ≤ P.dist c p := by
  have main : ∀ n c, c < P.k →
      ((Finset.range P.k).filter (fun x => P.dist x p < P.dist c p)).card = n →
      ∃ m, m ∈ vs ∧ P.dist m p ≤ P.dist c p := by
    intro n
    induction n using Nat.strong_induction_on with
    | _ n ih =>
      intro c hc hcard
      rcases hcov c hc with hv | ⟨Q, hQ, hcQ⟩
      · exact ⟨c, hv, le_refl _⟩
      · obtain ⟨-, m0, hm0k, hm0lt⟩ := hpr Q hQ c hcQ
        have hsub : (Finset.range P.k).filter (fun x => P.dist x p < P.dist m0 p) ⊆
            (Finset.range P.k).filter (fun x => P.dist x p < P.dist c p) := by
          intro x hx
          rw [Finset.mem_filter] at *
          exact ⟨hx.1, lt_trans hx.2 hm0lt⟩
        have hmem : m0 ∈ (Finset.range P.k).filter (fun x => P.dist x p < P.dist c p) :=
          Finset.mem_filter.mpr ⟨Finset.mem_range.mpr hm0k, hm0lt⟩
        have hnot : m0 ∉ (Finset.range P.k).filter (fun x => P.dist x p < P.dist m0 p) := by
          rw [Finset.mem_filter]
          rintro ⟨-, habs⟩
          exact lt_irrefl _ habs
        have hss : (Finset.range P.k).filter (fun x => P.dist x p < P.dist m0 p) ⊂
            (Finset.range P.k).filter (fun x => P.dist x p < P.dist c p) :=
          (Finset.ssubset_iff_of_subset hsub).mpr ⟨m0, hmem, hnot⟩
        have hcardlt :
            ((Finset.range P.k).filter (fun x => P.dist x p < P.dist m0 p)).card < n :=
          hcard ▸ Finset.card_lt_card hss
        obtain ⟨m, hmv, hmle⟩ := ih _ hcardlt m0 hm0k rfl
        exact ⟨m, hmv, le_trans hmle (le_of_lt hm0lt)⟩
  intro c hc
  exact main _ c hc rfl

/-- The brute-force scan returns a valid centroid index attaining the
minimum distance. -/
theorem bruteForce_attains (P : RulesParams) (p : ℕ) (hk : 0 < P.k) :
    bruteForceAssignment P p < P.k ∧
      ∀ c, c < P.k → P.dist (bruteForceAssignment P p) p ≤ P.dist c p := by
  have main : ∀ (l : List ℕ) (b : ℕ),
      (l.foldl (fun best c => if P.dist c p < P.dist best p then c else best) b = b ∨
        l.foldl (fun best c => if P.dist c p < P.dist best p then c else best) b ∈ l) ∧
      P.dist (l.foldl (fun best c => if P.dist c p < P.dist best p then c else best) b) p ≤
        P.dist b p ∧
      ∀ c ∈ l,
        P.dist (l.foldl (fun best c => if P.dist c p < P.dist best p then c else best) b) p ≤
          P.dist c p := by
    intro l
    induction l with
    | nil => exact fun b => ⟨Or.inl rfl, le_refl _, fun c hc => absurd hc (List.not_mem_nil c)⟩
    | cons a l2 ih =>
      intro b
      rw [List.foldl_cons]
      obtain ⟨ihm, ihb, ihall⟩ := ih (if P.dist a p < P.dist b p then a else b)
      have hble : P.dist (if P.dist a p < P.dist b p then a else b) p ≤ P.dist b p := by
        split
        · exact le_of_lt (by assumption)
        · exact le_refl _
      have hale : P.dist (if P.dist a p < P.dist b p then a else b) p ≤ P.dist a p := by
        split
        · exact le_refl _
        · exact le_of_not_lt (by assumption)
      refine ⟨?_, le_trans ihb hble, ?_⟩
      · rcases ihm with h | h
        · rw [h]
          split
          · exact Or.inr (List.mem_cons_self _ _)
          · exact Or.inl rfl
        · exact Or.inr (List.mem_cons_of_mem _ h)
      · intro c hc
        rcases List.mem_cons.mp hc with hc | hc
        · rw [hc]; exact le_trans ihb hale
        · exact ihall c hc
  obtain ⟨hm, _, hall⟩ := main (List.range P.k) 0
  constructor
  · rcases hm with h | h
    · rw [bruteForceAssignment, h]; exact hk
    · exact List.mem_range.mp h
  · intro c hc
    exact hall c (List.mem_range.mpr hc)

/-- Claim C1 (amended): over any traversal conforming to the engine
contract (score events carry true range-distance bounds, every centroid is
either base-cased against the point or Pelleg-Moore pruned at a node
containing it), the point's recorded nearest-centroid distance equals the
brute-force minimum distance, its assignment is the mapped index of a
centroid attaining that minimum (hence equals the brute-force assignment's
distance), and whenever the nearest centroid is unique the assignment is
exactly the mapped brute-force assignment.  On ties the retained index may
differ from brute force (see the tie counterexample). -/
theorem dualtree_assignment_amended (P : RulesParams) (A : List ℕ) (p : ℕ)
    (evs : List REvent) (st0 : RulesState)
    (hk : 0 < P.k)
    (hfin : ∀ c, c < P.k → P.dist c p < DBL_MAX)
    (hev : ∀ ev ∈ evs, eventOK P A p ev)
    (hstat0 : ∀ i ∈ A, (st0.stats i).maxQueryNodeDistance = DBL_MAX ∧
      (st0.stats i).secondMaxQueryNodeDistance = DBL_MAX ∧
      (st0.stats i).hamerlyPruned = false)
    (hpt0 : st0.visitedSets p = [] ∧ st0.prunedSets p = [] ∧
      st0.distanceIteration p < P.iteration)
    (hcov : ∀ c, c < P.k →
      c ∈ (runRules P evs st0).visitedSets p ∨
        ∃ Q ∈ (runRules P evs st0).prunedSets p, c ∈ Q) :
    (∀ c, c < P.k → (runRules P evs st0).distances p ≤ P.dist c p) ∧
      (∃ c, c < P.k ∧ P.mappings c = (runRules P evs st0).assignments p ∧
        P.dist c p = (runRules P evs st0).distances p) ∧
      (runRules P evs st0).distances p = P.dist (bruteForceAssignment P p) p ∧
      (∀ c0, c0 < P.k →
        (∀ c, c < P.k → c ≠ c0 → P.dist c0 p < P.dist c p) →
        (runRules P evs st0).assignments p = P.mappings c0) := by
  have hinv0 : runInv P A p st0 := by
    refine ⟨fun i hi => ⟨(hstat0 i hi).2.2, Or.inl (hstat0 i hi).1,
      Or.inl (hstat0 i hi).2.1⟩, ?_, ?_, ?_, ?_⟩
    · rw [hpt0.2.1]
      intro Q hQ
      exact absurd hQ (List.not_mem_nil Q)
    · intro c hc
      rw [hpt0.1] at hc
      exact absurd hc (List.not_mem_nil c)
    · intro _
      exact hpt0.2.2
    · intro habs
      exact absurd hpt0.1 habs
  have hinvF := runInv_run P A p hfin evs st0 hev hinv0
  obtain ⟨-, hprF, hvsk, hvempt, hvne⟩ := hinvF
  have hchain := closer_visited P p ((runRules P evs st0).visitedSets p)
    ((runRules P evs st0).prunedSets p) hprF hcov
  obtain ⟨m1, hm1v, -⟩ := hchain 0 hk
  have hne : (runRules P evs st0).visitedSets p ≠ [] := by
    intro habs
    rw [habs] at hm1v
    exact absurd hm1v (List.not_mem_nil m1)
  obtain ⟨-, hminv, c0, hc0m, hc0a, hc0d⟩ := hvne hne
  have hmin : ∀ c, c < P.k → (runRules P evs st0).distances p ≤ P.dist c p := by
    intro c hc
    obtain ⟨m, hmv, hmle⟩ := hchain c hc
    exact le_trans (hminv m hmv) hmle
  have hattained : ∃ c, c < P.k ∧
      P.mappings c = (runRules P evs st0).assignments p ∧
      P.dist c p = (runRules P evs st0).distances p :=
    ⟨c0, hvsk c0 hc0m, hc0a, hc0d⟩
  obtain ⟨hbfk, hbfall⟩ := bruteForce_attains P p hk
  have hbf : (runRules P evs st0).distances p = P.dist (bruteForceAssignment P p) p := by
    refine le_antisymm (hmin _ hbfk) ?_
    obtain ⟨c, hck, -, hcd⟩ := hattained
    rw [← hcd]
    exact hbfall c hck
  refine ⟨hmin, hattained, hbf, ?_⟩
  intro u hu huniq
  obtain ⟨c, hck, hca, hcd⟩ := hattained
  by_cases hcu : c = u
  · rw [← hca, hcu]
  · exfalso
    have h1 : P.dist u p < P.dist c p := huniq c hck hcu
    have h2 : P.dist c p ≤ P.dist u p := by
      rw [hcd]
      exact hmin u hu
    exact lt_irrefl _ (lt_of_le_of_lt h2 h1)


/-- Witness for the amended C1 theorem: the concrete tie traversal of the
counterexample satisfies every side condition, and the conclusion holds for
it. -/
theorem dualtree_assignment_amended_witness :
    (0 < rparamsC1.k ∧
      (∀ c, c < rparamsC1.k → rparamsC1.dist c 0 < DBL_MAX) ∧
      (∀ ev ∈ eventsC1, eventOK rparamsC1 [0] 0 ev) ∧
      (∀ i ∈ [0],
        ((initialRulesState 0).stats i).maxQueryNodeDistance = DBL_MAX ∧
        ((initialRulesState 0).stats i).secondMaxQueryNodeDistance = DBL_MAX ∧
        ((initialRulesState 0).stats i).hamerlyPruned = false) ∧
      ((initialRulesState 0).visitedSets 0 = [] ∧
        (initialRulesState 0).prunedSets 0 = [] ∧
        (initialRulesState 0).distanceIteration 0 < rparamsC1.iteration) ∧
      (∀ c, c < rparamsC1.k →
        c ∈ (runRules rparamsC1 eventsC1 (initialRulesState 0)).visitedSets 0 ∨
          ∃ Q ∈ (runRules rparamsC1 eventsC1 (initialRulesState 0)).prunedSets 0,
            c ∈ Q)) ∧
    ((∀ c, c < rparamsC1.k →
        (runRules rparamsC1 eventsC1 (initialRulesState 0)).distances 0 ≤
          rparamsC1.dist c 0) ∧
      (∃ c, c < rparamsC1.k ∧
        rparamsC1.mappings c =
          (runRules rparamsC1 eventsC1 (initialRulesState 0)).assignments 0 ∧
        rparamsC1.dist c 0 =
          (runRules rparamsC1 eventsC1 (initialRulesState 0)).distances 0) ∧
      (runRules rparamsC1 eventsC1 (initialRulesState 0)).distances 0 =
        rparamsC1.dist (bruteForceAssignment rparamsC1 0) 0 ∧
      (∀ c0, c0 < rparamsC1.k →
        (∀ c, c < rparamsC1.k → c ≠ c0 → rparamsC1.dist c0 0 < rparamsC1.dist c 0) →
        (runRules rparamsC1 eventsC1 (initialRulesState 0)).assignments 0 =
          rparamsC1.mappings c0)) := by
  have hev : ∀ ev ∈ eventsC1, eventOK rparamsC1 [0] 0 ev := by
    intro ev h
    fin_cases h <;> (simp only [eventOK]; decide)
  refine ⟨⟨by decide, by decide, hev, by decide, by decide, by decide⟩, ?_⟩
  exact dualtree_assignment_amended rparamsC1 [0] 0 eventsC1 (initialRulesState 0)
    (by decide) (by decide) hev (by decide) (by decide) (by decide)


/-! ### Claim C3: the commit-exactly-once property.

Concrete instance: four centroids at coordinates 0, 12, 20, 43 (tree
shape: root {c0 | {{c1 | c2} | c3}}) and four data points x0 = 39,
x1 = 30, x2 = 58, x3 = 55 (reference tree: root 0 = {leaf 3 = [x0] |
node 1 = {leaf 4 = [x1] | node 2 = {leaf 5 = [x2] | leaf 6 = [x3]}}}).
The traversal below is a plain depth-first dual-tree traversal (the spec's
engine contract allows breadth-first or depth-first walkers): child pairs
of each scored pair are visited in stack order, pruned pairs are never
descended into, and base cases run at leaf-leaf pairs.  All lo/hi values
are the exact interval range distances of the 1-D bounds. -/

/-- Distance table dist(centroid c, point r) = |coordinate difference|,
tabulated to keep kernel evaluation free of rational arithmetic. -/
def distC3 : ℕ → ℕ → ℚ := fun c r =>
  ([[39, 30, 58, 55], [27, 18, 46, 43],
    [19, 10, 38, 35], [4, 13, 15, 12]].getD c []).getD r 0

def rparamsC3 : RulesParams where
  k := 4
  iteration := 1
  mappings := fun c => c
  dist := distC3

/-- The depth-first traversal event sequence. -/
def eventsC3 : List REvent :=
  [REvent.score 0 0 [0, 1, 2, 3] [0, 1, 2, 3] 0 58,
   REvent.score 1 0 [1, 2, 3] [1, 2, 3] 0 46,
   REvent.score 2 1 [3] [2, 3] 12 15,
   REvent.score 6 2 [3] [3] 12 12,
   REvent.base 6 3 3,
   REvent.score 5 2 [3] [2] 15 15,
   REvent.base 5 3 2,
   REvent.score 4 1 [3] [1] 13 13,
   REvent.base 4 3 1,
   REvent.score 2 1 [1, 2] [2, 3] 35 46,
   REvent.score 6 2 [2] [3] 35 35,
   REvent.base 6 2 3,
   REvent.score 5 2 [2] [2] 38 38,
   REvent.base 5 2 2,
   REvent.score 6 2 [1] [3] 43 43,
   REvent.score 5 2 [1] [2] 46 46,
   REvent.score 4 1 [1, 2] [1] 10 18,
   REvent.score 4 1 [2] [1] 10 10,
   REvent.base 4 2 1,
   REvent.score 4 1 [1] [1] 18 18,
   REvent.score 3 0 [1, 2, 3] [0] 0 27,
   REvent.score 3 0 [3] [0] 4 4,
   REvent.base 3 3 0,
   REvent.score 3 0 [1, 2] [0] 19 27,
   REvent.score 1 0 [0] [1, 2, 3] 30 58,
   REvent.score 2 1 [0] [2, 3] 55 58,
   REvent.score 4 1 [0] [1] 30 30,
   REvent.score 3 0 [0] [0] 39 39]

set_option maxRecDepth 8000

/-- Claim C3 (code_bug evidence): on this conforming depth-first traversal
the cluster accounting of points 2 and 3 is completed across different tree
levels (centroid 1 is pruned at their leaves, centroid 0 at their
grandparent node 2, after the leaves had already inherited the counter),
so no single node's ClustersPruned + visited counter ever reaches k: the
commit trigger never fires and the two points are never added to the new
centroid sums, even though every centroid was either base-cased against
them or pruned at a node containing them.  Points 0 and 1 are committed
exactly once.  The spec's commit-idempotence property ("added exactly once
... no point is omitted") fails on the code. -/
theorem dualtree_commit_omission :
    (∀ ev ∈ eventsC3, eventOK rparamsC3 [0, 1, 2, 6] 3 ev) ∧
    (∀ ev ∈ eventsC3, eventOK rparamsC3 [0, 1, 2, 5] 2 ev) ∧
    (runRules rparamsC3 eventsC3 (initialRulesState 0)).commits 0 = 1 ∧
    (runRules rparamsC3 eventsC3 (initialRulesState 0)).commits 1 = 1 ∧
    (runRules rparamsC3 eventsC3 (initialRulesState 0)).commits 2 = 0 ∧
    (runRules rparamsC3 eventsC3 (initialRulesState 0)).commits 3 = 0 ∧
    (∀ c, c < rparamsC3.k →
      c ∈ (runRules rparamsC3 eventsC3 (initialRulesState 0)).visitedSets 2 ∨
        ∃ Q ∈ (runRules rparamsC3 eventsC3 (initialRulesState 0)).prunedSets 2,
          c ∈ Q) ∧
    (∀ c, c < rparamsC3.k →
      c ∈ (runRules rparamsC3 eventsC3 (initialRulesState 0)).visitedSets 3 ∨
        ∃ Q ∈ (runRules rparamsC3 eventsC3 (initialRulesState 0)).prunedSets 3,
          c ∈ Q) := by
  refine ⟨?_, ?_, by decide, by decide, by decide, by decide, by decide, by decide⟩
  · intro ev h
    fin_cases h <;> (simp only [eventOK]; decide)
  · intro ev h
    fin_cases h <;> (simp only [eventOK]; decide)


end Kmeans

namespace Lmnn

/-! ### LMNN targets-and-impostors rules
(lmnn_targets_and_impostors_rules_impl.hpp)

The per-query candidate lists are std::priority_queue instances with
comparator CandidateCmp (top = farthest retained candidate), initialized
with k sentinel pairs (DBL_MAX, size_t(-1)).  They are modelled as lists
sorted by nonincreasing distance whose head is the top. -/

/-- A candidate: (distance, reference index). -/
abbrev Candidate := ℚ × ℕ

/-- CandidateCmp from the rules header: cmp(c1, c2) = !(c2.first <=
c1.first), i.e. c1 sorts before c2 exactly when c1 is closer. -/
def candidateCmp (c1 c2 : Candidate) : Bool := !(decide (c2.1 ≤ c1.1))

/-- The queue's top (the worst retained candidate). -/
def qTop (q : List Candidate) : Candidate := q.headD (0, 0)

/-- Push into the sorted-by-nonincreasing-distance representation. -/
def qPush (c : Candidate) : List Candidate → List Candidate
  | [] => [c]
  | d :: ds => if d.1 ≤ c.1 then c :: d :: ds else d :: qPush c ds

/-- InsertNeighbor / InsertImpostor (lines 447-484): when the new candidate
beats the current worst retained one, pop the top and push the new
candidate. -/
def insertCandidate (c : Candidate) (q : List Candidate) : List Candidate :=
  if candidateCmp c (qTop q) then qPush c q.tail else q

/-- The ordering maintained by the queue model. -/
def descBy (a b : Candidate) : Prop := b.1 ≤ a.1

theorem candidateCmp_iff (c t : Candidate) :
    candidateCmp c t = true ↔ c.1 < t.1 := by
  simp [candidateCmp, not_le]

theorem qPush_length (c : Candidate) :
    ∀ l : List Candidate, (qPush c l).length = l.length + 1 := by
  intro l
  induction l with
  | nil => rfl
  | cons d ds ih =>
    simp only [qPush]
    split
    · rfl
    · simp [ih]

theorem qPush_mem (c : Candidate) :
    ∀ (l : List Candidate) (e : Candidate), e ∈ qPush c l ↔ e = c ∨ e ∈ l := by
  intro l
  induction l with
  | nil =>
    intro e
    simp [qPush]
  | cons d ds ih =>
    intro e
    simp only [qPush]
    split
    · simp [List.mem_cons, or_comm, or_assoc, or_left_comm]
    · simp only [List.mem_cons, ih e]
      tauto

theorem qPush_pairwise (c : Candidate) :
    ∀ l : List Candidate, l.Pairwise descBy → (qPush c l).Pairwise descBy := by
  intro l
  induction l with
  | nil =>
    intro _
    exact List.pairwise_singleton _ _
  | cons d ds ih =>
    intro h
    rw [List.pairwise_cons] at h
    simp only [qPush]
    split
    · rw [List.pairwise_cons]
      constructor
      · intro e he
        rcases List.mem_cons.mp he with he | he
        · rw [he]; exact (by assumption : d.1 ≤ c.1)
        · exact le_trans (h.1 e he) (by assumption)
      · rw [List.pairwise_cons]
        exact ⟨h.1, h.2⟩
    · rw [List.pairwise_cons]
      constructor
      · intro e he
        rcases (qPush_mem c ds e).mp he with he | he
        · rw [he]
          exact le_of_lt (lt_of_not_le (by assumption))
        · exact h.1 e he
      · exact ih h.2

theorem qTop_mem (l : List Candidate) (h : l ≠ []) : qTop l ∈ l := by
  cases l with
  | nil => exact absurd rfl h
  | cons d ds => exact List.mem_cons_self _ _

theorem top_ge (l : List Candidate) (h : l.Pairwise descBy) :
    ∀ e ∈ l, e.1 ≤ (qTop l).1 := by
  cases l with
  | nil => intro e he; exact absurd he (List.not_mem_nil e)
  | cons d ds =>
    rw [List.pairwise_cons] at h
    intro e he
    rcases List.mem_cons.mp he with he | he
    · rw [he]; exact le_refl _
    · exact h.1 e he

/-- The full behaviour of the bounded insert on a nonempty sorted queue. -/
theorem insertCandidate_spec (c : Candidate) (queue : List Candidate)
    (hne : queue ≠ []) (hsort : queue.Pairwise descBy) :
    (insertCandidate c queue).length = queue.length ∧
      (insertCandidate c queue).Pairwise descBy ∧
      (insertCandidate c queue) ≠ [] ∧
      (qTop (insertCandidate c queue)).1 ≤ (qTop queue).1 ∧
      (∀ e ∈ insertCandidate c queue, e = c ∨ e ∈ queue) ∧
      (c.1 < (qTop queue).1 → c ∈ insertCandidate c queue) ∧
      (¬ c.1 < (qTop queue).1 → insertCandidate c queue = queue) ∧
      (∀ e ∈ queue, e ∈ insertCandidate c queue ∨ (qTop queue).1 ≤ e.1) := by
  by_cases hc : c.1 < (qTop queue).1
  · have hcmp : candidateCmp c (qTop queue) = true := (candidateCmp_iff c _).mpr hc
    cases queue with
    | nil => exact absurd rfl hne
    | cons t rest =>
      have hins : insertCandidate c (t :: rest) = qPush c rest := by
        rw [insertCandidate, hcmp]
        rfl
      rw [List.pairwise_cons] at hsort
      have hmem := qPush_mem c rest
      have htople : ∀ e ∈ qPush c rest, e.1 ≤ (qTop (t :: rest)).1 := by
        intro e he
        rcases (hmem e).mp he with he | he
        · rw [he]; exact le_of_lt hc
        · exact hsort.1 e he
      have hpne : qPush c rest ≠ [] := by
        intro habs
        have : (qPush c rest).length = rest.length + 1 := qPush_length c rest
        rw [habs] at this
        exact Nat.noConfusion this
      refine ⟨?_, ?_, ?_, ?_, ?_, ?_, ?_, ?_⟩
      · rw [hins, qPush_length]
        rfl
      · rw [hins]; exact qPush_pairwise c rest hsort.2
      · rw [hins]; exact hpne
      · rw [hins]
        exact htople _ (qTop_mem _ hpne)
      · intro e he
        rw [hins] at he
        rcases (hmem e).mp he with he | he
        · exact Or.inl he
        · exact Or.inr (List.mem_cons_of_mem _ he)
      · intro _
        rw [hins]
        exact (hmem c).mpr (Or.inl rfl)
      · intro habs
        exact absurd hc habs
      · intro e he
        rcases List.mem_cons.mp he with he | he
        · right
          rw [he]
          exact le_refl _
        · left
          rw [hins]
          exact (hmem e).mpr (Or.inr he)
  · have hcmp : ¬ candidateCmp c (qTop queue) = true := by
      rw [candidateCmp_iff]
      exact hc
    have hins : insertCandidate c queue = queue := by
      rw [insertCandidate, if_neg (by simpa using hcmp)]
    refine ⟨by rw [hins], by rw [hins]; exact hsort, by rw [hins]; exact hne,
      by rw [hins], ?_, fun h => absurd h hc, fun _ => hins, ?_⟩
    · intro e he
      rw [hins] at he
      exact Or.inr he
    · intro e he
      rw [hins]
      exact Or.inl he


/-- Fixed data of one targets-and-impostors traversal: the number of query
points, the metric on tree-order indices, and the (sorted) labels of both
sets. -/
structure LParams where
  nq : ℕ
  d : ℕ → ℕ → ℚ
  queryLabels : ℕ → ℕ
  referenceLabels : ℕ → ℕ

/-- Mutable state of the rules object plus ghost accounting: processed
lists the reference points a query point was base-cased against, excluded
those removed from consideration by node prunes. -/
structure LState where
  candidateNeighbors : ℕ → List Candidate
  candidateImpostors : ℕ → List Candidate
  lastQueryIndex : ℕ
  lastReferenceIndex : ℕ
  lastBaseCase : ℚ
  processed : ℕ → List ℕ
  excluded : ℕ → List ℕ

/-- BaseCase (lmnn_targets_and_impostors_rules_impl.hpp lines 111-140):
a repeat of the cached pair returns the cached distance and changes
nothing; a self-comparison returns 0 and changes nothing (in particular
the cache is not updated on that path); otherwise the distance is
computed, the candidate is offered to the same-label or different-label
structure according to the labels, and the pair is cached. -/
def lmnnBaseCase (P : LParams) (st : LState) (q r : ℕ) : LState × ℚ :=
  if st.lastQueryIndex = q ∧ st.lastReferenceIndex = r then
    (st, st.lastBaseCase)
  else if q = r then (st, 0)
  else
    let dist := P.d q r
    let st1 :=
      if P.queryLabels q = P.referenceLabels r then
        { st with
          candidateNeighbors := Function.update st.candidateNeighbors q
            (insertCandidate (dist, r) (st.candidateNeighbors q)),
          processed := Function.update st.processed q (r :: st.processed q) }
      else
        { st with
          candidateImpostors := Function.update st.candidateImpostors q
            (insertCandidate (dist, r) (st.candidateImpostors q)),
          processed := Function.update st.processed q (r :: st.processed q) }
    ({ st1 with lastQueryIndex := q, lastReferenceIndex := r,
                lastBaseCase := dist }, dist)

/-- One traversal event: a base case, or a node-pair prune excluding the
reference points rs from further consideration for the query points qs. -/
inductive LEvent where
  | base (q r : ℕ)
  | prune (qs rs : List ℕ)
  deriving Repr, DecidableEq

/-- Process one event. -/
def lmnnStep (P : LParams) (st : LState) : LEvent → LState
  | LEvent.base q r => (lmnnBaseCase P st q r).1
  | LEvent.prune qs rs =>
      { st with excluded := fun q =>
          if q ∈ qs then rs ++ st.excluded q else st.excluded q }

/-- One whole traversal. -/
def runLmnn (P : LParams) (evs : List LEvent) (st : LState) : LState :=
  evs.foldl (lmnnStep P) st

/-- The pruning contract of Score for one event and a fixed query point
q0: a prune event covering q0 is admissible only when every excluded
reference point is strictly farther from q0 than both of q0's current
worst retained candidates (the code prunes when the pair's minimum
distance exceeds CalculateBound, the max over the node's query points of
the larger of the two queue tops). -/
def levHead (P : LParams) (q0 : ℕ) (st : LState) : LEvent → Bool
  | LEvent.base _ _ => true
  | LEvent.prune qs rs =>
      (!(decide (q0 ∈ qs))) || rs.all (fun r =>
        decide ((qTop (st.candidateNeighbors q0)).1 < P.d q0 r) &&
        decide ((qTop (st.candidateImpostors q0)).1 < P.d q0 r))

/-- An event list conforms to the pruning contract for q0 when every
event's head condition holds at the state it is applied in. -/
def conformantFor (P : LParams) (q0 : ℕ) : LState → List LEvent → Bool
  | _, [] => true
  | st, ev :: evs =>
      levHead P q0 st ev && conformantFor P q0 (lmnnStep P st ev) evs

theorem conformantFor_cons (P : LParams) (q0 : ℕ) (st : LState)
    (ev : LEvent) (evs : List LEvent) :
    conformantFor P q0 st (ev :: evs) =
      (levHead P q0 st ev && conformantFor P q0 (lmnnStep P st ev) evs) := rfl

theorem runLmnn_cons (P : LParams) (st : LState) (ev : LEvent)
    (evs : List LEvent) :
    runLmnn P (ev :: evs) st = runLmnn P evs (lmnnStep P st ev) := rfl

/-- One output column of GetResults (lines 74-109): the queue is popped
from the top (farthest retained candidate first) into rows neighborsK-1
down to 0, each reference index unmapped through refOldFromNew, so the
row-order column is the reversed queue. -/
def getResultsColumn (refOldFromNew : ℕ → ℕ) (queue : List Candidate) :
    List (ℕ × ℚ) :=
  (queue.map (fun c => (refOldFromNew c.2, c.1))).reverse

/-- All columns of one GetResults output: the column computed for
tree-order query point i is written at column queryOldFromNew i. -/
def getResultsCols (queryOldFromNew refOldFromNew : ℕ → ℕ)
    (cand : ℕ → List Candidate) (nq : ℕ) : List (ℕ × List (ℕ × ℚ)) :=
  (List.range nq).map (fun i =>
    (queryOldFromNew i, getResultsColumn refOldFromNew (cand i)))

/-- Claim C10: a BaseCase call repeating the cached (query, reference)
pair returns the cached base-case distance and leaves the entire state -
both candidate structures, the ghost fields, and the cache itself -
unchanged; in particular the pair is not inserted a second time. -/
theorem lmnn_basecase_cached (P : LParams) (st : LState) (q r : ℕ)
    (hq : st.lastQueryIndex = q) (hr : st.lastReferenceIndex = r) :
    lmnnBaseCase P st q r = (st, st.lastBaseCase) := by
  rw [lmnnBaseCase, if_pos ⟨hq, hr⟩]

/-- A concrete state for the C10 witness: the cached pair is (1, 2) with
cached distance 5. -/
def lstateC10 : LState where
  candidateNeighbors := fun _ => [(DBL_MAX, SIZE_MAX)]
  candidateImpostors := fun _ => [(DBL_MAX, SIZE_MAX)]
  lastQueryIndex := 1
  lastReferenceIndex := 2
  lastBaseCase := 5
  processed := fun _ => [2]
  excluded := fun _ => []

def lparamsC10 : LParams where
  nq := 3
  d := fun _ _ => 5
  queryLabels := fun _ => 0
  referenceLabels := fun _ => 0

/-- Witness for the C10 theorem at the concrete cached pair. -/
theorem lmnn_basecase_cached_witness :
    lstateC10.lastQueryIndex = 1 ∧ lstateC10.lastReferenceIndex = 2 ∧
      lmnnBaseCase lparamsC10 lstateC10 1 2 =
        (lstateC10, lstateC10.lastBaseCase) :=
  ⟨rfl, rfl, lmnn_basecase_cached lparamsC10 lstateC10 1 2 rfl rfl⟩


/-- The state built by the rules constructor (lines 44-71): every query
point's two candidate lists hold k copies of the sentinel
(DBL_MAX, size_t() - 1), the cache pair is the out-of-range
(querySet.n_cols, referenceSet.n_cols), and nothing has been processed. -/
def initialLState (kn ki nq nref : ℕ) : LState where
  candidateNeighbors := fun _ => List.replicate kn ((DBL_MAX : ℚ), SIZE_MAX)
  candidateImpostors := fun _ => List.replicate ki ((DBL_MAX : ℚ), SIZE_MAX)
  lastQueryIndex := nq
  lastReferenceIndex := nref
  lastBaseCase := 0
  processed := fun _ => []
  excluded := fun _ => []

/-- Which of the two candidate structures a reference point belongs in:
matching labels go to the neighbors queue, differing labels to the
impostors queue. -/
def labelGuard (P : LParams) (q0 : ℕ) (same : Bool) (r : ℕ) : Prop :=
  match same with
  | true => P.queryLabels q0 = P.referenceLabels r
  | false => P.queryLabels q0 ≠ P.referenceLabels r

/-- Invariant of one candidate queue of query point q0 against the ghost
processed and excluded lists: size k, sorted nonincreasing, every entry a
sentinel or a faithfully recorded processed point of the right label,
every processed point of the right label retained or no closer than the
top, every excluded point strictly farther than the top. -/
def queueInv (P : LParams) (q0 kk : ℕ) (same : Bool) (proc exc : List ℕ)
    (queue : List Candidate) : Prop :=
  queue.length = kk ∧ queue.Pairwise descBy ∧ queue ≠ [] ∧
  (∀ c ∈ queue, c = ((DBL_MAX : ℚ), SIZE_MAX) ∨
     (c.2 ∈ proc ∧ c.2 ≠ q0 ∧ labelGuard P q0 same c.2 ∧ c.1 = P.d q0 c.2)) ∧
  (∀ r ∈ proc, r ≠ q0 → labelGuard P q0 same r →
     ((P.d q0 r, r) ∈ queue ∨ (qTop queue).1 ≤ P.d q0 r)) ∧
  (∀ r ∈ exc, (qTop queue).1 < P.d q0 r)

/-- The joint invariant of both queues of query point q0. -/
def LInv (P : LParams) (q0 kn ki : ℕ) (st : LState) : Prop :=
  queueInv P q0 kn true (st.processed q0) (st.excluded q0)
    (st.candidateNeighbors q0) ∧
  queueInv P q0 ki false (st.processed q0) (st.excluded q0)
    (st.candidateImpostors q0)

/-- A reference point accounted for by the traversal for q0: visited by a
base case or removed by a prune. -/
def covered (st : LState) (q0 r : ℕ) : Prop :=
  r ∈ st.processed q0 ∨ r ∈ st.excluded q0

/-- Offering a candidate to its own queue preserves the queue invariant. -/
theorem queueInv_insert (P : LParams) (q0 kk : ℕ) (same : Bool)
    (proc exc : List ℕ) (queue : List Candidate) (r : ℕ)
    (hr : r ≠ q0) (hl : labelGuard P q0 same r)
    (h : queueInv P q0 kk same proc exc queue) :
    queueInv P q0 kk same (r :: proc) exc
      (insertCandidate (P.d q0 r, r) queue) := by
  obtain ⟨hlen, hsort, hne, hsound, hcover, hexc⟩ := h
  obtain ⟨slen, ssort, sne, stople, smem, sins, sid, skeep⟩ :=
    insertCandidate_spec (P.d q0 r, r) queue hne hsort
  refine ⟨slen.trans hlen, ssort, sne, ?_, ?_, ?_⟩
  · intro c hc
    rcases smem c hc with hc' | hc'
    · right
      rw [hc']
      exact ⟨List.mem_cons_self _ _, hr, hl, rfl⟩
    · rcases hsound c hc' with h' | h'
      · exact Or.inl h'
      · exact Or.inr ⟨List.mem_cons_of_mem _ h'.1, h'.2.1, h'.2.2.1, h'.2.2.2⟩
  · intro r' hr' hrq hlg
    rcases List.mem_cons.mp hr' with hr' | hr'
    · subst hr'
      by_cases hlt : P.d q0 r' < (qTop queue).1
      · exact Or.inl (sins hlt)
      · right
        rw [sid hlt]
        exact not_lt.mp hlt
    · rcases hcover r' hr' hrq hlg with hin | htop
      · rcases skeep _ hin with hin' | htop'
        · exact Or.inl hin'
        · exact Or.inr (le_trans stople htop')
      · exact Or.inr (le_trans stople htop)
  · intro e he
    exact lt_of_le_of_lt stople (hexc e he)

/-- Processing a point of the other label leaves this queue's invariant
intact (only the processed ghost grows). -/
theorem queueInv_other (P : LParams) (q0 kk : ℕ) (same : Bool)
    (proc exc : List ℕ) (queue : List Candidate) (r : ℕ)
    (hl : ¬ labelGuard P q0 same r)
    (h : queueInv P q0 kk same proc exc queue) :
    queueInv P q0 kk same (r :: proc) exc queue := by
  obtain ⟨hlen, hsort, hne, hsound, hcover, hexc⟩ := h
  refine ⟨hlen, hsort, hne, ?_, ?_, hexc⟩
  · intro c hc
    rcases hsound c hc with h' | h'
    · exact Or.inl h'
    · exact Or.inr ⟨List.mem_cons_of_mem _ h'.1, h'.2.1, h'.2.2.1, h'.2.2.2⟩
  · intro r' hr' hrq hlg
    rcases List.mem_cons.mp hr' with hr' | hr'
    · subst hr'
      exact absurd hlg hl
    · exact hcover r' hr' hrq hlg

/-- Excluding points strictly beyond the top preserves the invariant. -/
theorem queueInv_prune (P : LParams) (q0 kk : ℕ) (same : Bool)
    (proc exc : List ℕ) (queue : List Candidate) (rs : List ℕ)
    (hrs : ∀ e ∈ rs, (qTop queue).1 < P.d q0 e)
    (h : queueInv P q0 kk same proc exc queue) :
    queueInv P q0 kk same proc (rs ++ exc) queue := by
  obtain ⟨hlen, hsort, hne, hsound, hcover, hexc⟩ := h
  refine ⟨hlen, hsort, hne, hsound, hcover, ?_⟩
  intro e he
  rcases List.mem_append.mp he with he | he
  · exact hrs e he
  · exact hexc e he

/-- A base case for a different query point changes nothing visible to
q0. -/
theorem lmnnBaseCase_frame (P : LParams) (st : LState) (q r q0 : ℕ)
    (hq : q ≠ q0) :
    ((lmnnBaseCase P st q r).1).candidateNeighbors q0 =
        st.candidateNeighbors q0 ∧
      ((lmnnBaseCase P st q r).1).candidateImpostors q0 =
        st.candidateImpostors q0 ∧
      ((lmnnBaseCase P st q r).1).processed q0 = st.processed q0 ∧
      ((lmnnBaseCase P st q r).1).excluded q0 = st.excluded q0 := by
  rw [lmnnBaseCase]
  repeat' split
  all_goals simp [Function.update_noteq (Ne.symm hq)]


/-- One admissible event preserves the joint invariant. -/
theorem LInv_step (P : LParams) (q0 kn ki : ℕ) (st : LState) (ev : LEvent)
    (h : LInv P q0 kn ki st) (hc : levHead P q0 st ev = true) :
    LInv P q0 kn ki (lmnnStep P st ev) := by
  cases ev with
  | base q r =>
    by_cases hcache : st.lastQueryIndex = q ∧ st.lastReferenceIndex = r
    · have hstep : lmnnStep P st (LEvent.base q r) = st := by
        simp [lmnnStep, lmnnBaseCase, hcache.1, hcache.2]
      rw [hstep]
      exact h
    · by_cases hqr : q = r
      · have hstep : lmnnStep P st (LEvent.base q r) = st := by
          simp only [lmnnStep, lmnnBaseCase, hqr]
          split <;> simp
        rw [hstep]
        exact h
      · by_cases hq : q = q0
        · subst hq
          have hrq : r ≠ q := fun habs => hqr habs.symm
          by_cases hlab : P.queryLabels q = P.referenceLabels r
          · have hN : (lmnnStep P st (LEvent.base q r)).candidateNeighbors q =
                insertCandidate (P.d q r, r) (st.candidateNeighbors q) := by
              simp [lmnnStep, lmnnBaseCase, hcache, hqr, hlab]
            have hI : (lmnnStep P st (LEvent.base q r)).candidateImpostors q =
                st.candidateImpostors q := by
              simp [lmnnStep, lmnnBaseCase, hcache, hqr, hlab]
            have hP : (lmnnStep P st (LEvent.base q r)).processed q =
                r :: st.processed q := by
              simp [lmnnStep, lmnnBaseCase, hcache, hqr, hlab]
            have hE : (lmnnStep P st (LEvent.base q r)).excluded q =
                st.excluded q := by
              simp [lmnnStep, lmnnBaseCase, hcache, hqr, hlab]
            refine ⟨?_, ?_⟩
            · rw [hN, hP, hE]
              exact queueInv_insert P q kn true _ _ _ r hrq hlab h.1
            · rw [hI, hP, hE]
              refine queueInv_other P q ki false _ _ _ r ?_ h.2
              simp only [labelGuard, ne_eq, not_not]
              exact hlab
          · have hN : (lmnnStep P st (LEvent.base q r)).candidateNeighbors q =
                st.candidateNeighbors q := by
              simp [lmnnStep, lmnnBaseCase, hcache, hqr, hlab]
            have hI : (lmnnStep P st (LEvent.base q r)).candidateImpostors q =
                insertCandidate (P.d q r, r) (st.candidateImpostors q) := by
              simp [lmnnStep, lmnnBaseCase, hcache, hqr, hlab]
            have hP : (lmnnStep P st (LEvent.base q r)).processed q =
                r :: st.processed q := by
              simp [lmnnStep, lmnnBaseCase, hcache, hqr, hlab]
            have hE : (lmnnStep P st (LEvent.base q r)).excluded q =
                st.excluded q := by
              simp [lmnnStep, lmnnBaseCase, hcache, hqr, hlab]
            refine ⟨?_, ?_⟩
            · rw [hN, hP, hE]
              refine queueInv_other P q kn true _ _ _ r ?_ h.1
              simp only [labelGuard]
              exact hlab
            · rw [hI, hP, hE]
              exact queueInv_insert P q ki false _ _ _ r hrq hlab h.2
        · obtain ⟨hN, hI, hP, hE⟩ := lmnnBaseCase_frame P st q r q0 hq
          have hstep : lmnnStep P st (LEvent.base q r) =
              (lmnnBaseCase P st q r).1 := rfl
          refine ⟨?_, ?_⟩
          · rw [hstep, hN, hP, hE]
            exact h.1
          · rw [hstep, hI, hP, hE]
            exact h.2
  | prune qs rs =>
    by_cases hin : q0 ∈ qs
    · have hall : ∀ e ∈ rs,
          (qTop (st.candidateNeighbors q0)).1 < P.d q0 e ∧
            (qTop (st.candidateImpostors q0)).1 < P.d q0 e := by
        simp [levHead, hin] at hc
        exact hc
      have hN : (lmnnStep P st (LEvent.prune qs rs)).candidateNeighbors q0 =
          st.candidateNeighbors q0 := rfl
      have hI : (lmnnStep P st (LEvent.prune qs rs)).candidateImpostors q0 =
          st.candidateImpostors q0 := rfl
      have hP : (lmnnStep P st (LEvent.prune qs rs)).processed q0 =
          st.processed q0 := rfl
      have hE : (lmnnStep P st (LEvent.prune qs rs)).excluded q0 =
          rs ++ st.excluded q0 := by
        simp [lmnnStep, hin]
      refine ⟨?_, ?_⟩
      · rw [hN, hP, hE]
        exact queueInv_prune P q0 kn true _ _ _ rs
          (fun e he => (hall e he).1) h.1
      · rw [hI, hP, hE]
        exact queueInv_prune P q0 ki false _ _ _ rs
          (fun e he => (hall e he).2) h.2
    · have hE : (lmnnStep P st (LEvent.prune qs rs)).excluded q0 =
          st.excluded q0 := by
        simp [lmnnStep, hin]
      refine ⟨?_, ?_⟩
      · rw [show (lmnnStep P st (LEvent.prune qs rs)).candidateNeighbors q0 =
            st.candidateNeighbors q0 from rfl,
          show (lmnnStep P st (LEvent.prune qs rs)).processed q0 =
            st.processed q0 from rfl, hE]
        exact h.1
      · rw [show (lmnnStep P st (LEvent.prune qs rs)).candidateImpostors q0 =
            st.candidateImpostors q0 from rfl,
          show (lmnnStep P st (LEvent.prune qs rs)).processed q0 =
            st.processed q0 from rfl, hE]
        exact h.2

/-- A whole conformant traversal preserves the joint invariant. -/
theorem LInv_run (P : LParams) (q0 kn ki : ℕ) :
    ∀ (evs : List LEvent) (st : LState), LInv P q0 kn ki st →
      conformantFor P q0 st evs = true →
      LInv P q0 kn ki (runLmnn P evs st) := by
  intro evs
  induction evs with
  | nil => exact fun st h _ => h
  | cons ev evs ih =>
    intro st h hc
    rw [conformantFor_cons, Bool.and_eq_true] at hc
    rw [runLmnn_cons]
    exact ih _ (LInv_step P q0 kn ki st ev h hc.1) hc.2

/-- The constructor's state satisfies the joint invariant for nonzero
queue sizes. -/
theorem LInv_initial (P : LParams) (q0 kn ki nq nref : ℕ)
    (hkn : 0 < kn) (hki : 0 < ki) :
    LInv P q0 kn ki (initialLState kn ki nq nref) := by
  have hpair : ∀ (c : Candidate) (n : ℕ),
      (List.replicate n c).Pairwise descBy := by
    intro c n
    induction n with
    | zero => exact List.Pairwise.nil
    | succ n ih =>
      rw [List.replicate_succ, List.pairwise_cons]
      refine ⟨fun e he => ?_, ih⟩
      rw [List.eq_of_mem_replicate he]
      exact le_refl c.1
  have hqi : ∀ (kk : ℕ), 0 < kk → ∀ (same : Bool),
      queueInv P q0 kk same [] []
        (List.replicate kk ((DBL_MAX : ℚ), SIZE_MAX)) := by
    intro kk hkk same
    refine ⟨List.length_replicate _ _, hpair _ _, ?_, ?_, ?_, ?_⟩
    · intro habs
      have := congrArg List.length habs
      rw [List.length_replicate] at this
      simp at this
      omega
    · intro c hcmem
      exact Or.inl (List.eq_of_mem_replicate hcmem)
    · intro r hr
      exact absurd hr (List.not_mem_nil r)
    · intro e he
      exact absurd he (List.not_mem_nil e)
  exact ⟨hqi kn hkn true, hqi ki hki false⟩


/-- The guaranteed shape of the results for query point q0 after a
traversal: both queues have full size; every retained entry is a sentinel
or a genuine point of the right label at its true distance; every covered
point of the right label is retained or no closer than the worst retained
candidate (the k nearest up to boundary ties); GetResults emits each
column in nondecreasing distance order with reference indices unmapped,
at the unmapped query column. -/
def LPost (P : LParams) (q0 kn ki : ℕ) (st : LState) : Prop :=
  (st.candidateNeighbors q0).length = kn ∧
  (st.candidateImpostors q0).length = ki ∧
  (∀ c ∈ st.candidateNeighbors q0, c = ((DBL_MAX : ℚ), SIZE_MAX) ∨
     (c.2 ≠ q0 ∧ P.queryLabels q0 = P.referenceLabels c.2 ∧
      c.1 = P.d q0 c.2)) ∧
  (∀ c ∈ st.candidateImpostors q0, c = ((DBL_MAX : ℚ), SIZE_MAX) ∨
     (c.2 ≠ q0 ∧ P.queryLabels q0 ≠ P.referenceLabels c.2 ∧
      c.1 = P.d q0 c.2)) ∧
  (∀ r, covered st q0 r → r ≠ q0 → P.queryLabels q0 = P.referenceLabels r →
     ((P.d q0 r, r) ∈ st.candidateNeighbors q0 ∨
      (qTop (st.candidateNeighbors q0)).1 ≤ P.d q0 r)) ∧
  (∀ r, covered st q0 r → r ≠ q0 → P.queryLabels q0 ≠ P.referenceLabels r →
     ((P.d q0 r, r) ∈ st.candidateImpostors q0 ∨
      (qTop (st.candidateImpostors q0)).1 ≤ P.d q0 r)) ∧
  (∀ rofn : ℕ → ℕ,
     List.Pairwise (fun a b => a.2 ≤ b.2)
       (getResultsColumn rofn (st.candidateNeighbors q0)) ∧
     List.Pairwise (fun a b => a.2 ≤ b.2)
       (getResultsColumn rofn (st.candidateImpostors q0))) ∧
  (∀ qofn rofn : ℕ → ℕ, q0 < P.nq →
     (qofn q0, getResultsColumn rofn (st.candidateNeighbors q0)) ∈
       getResultsCols qofn rofn st.candidateNeighbors P.nq)

theorem getResultsColumn_sorted (rofn : ℕ → ℕ) (queue : List Candidate)
    (h : queue.Pairwise descBy) :
    List.Pairwise (fun a b => a.2 ≤ b.2) (getResultsColumn rofn queue) := by
  rw [getResultsColumn, List.pairwise_reverse, List.pairwise_map]
  exact h

/-- Claim C2 (amended): after any traversal conforming to the pruning
contract, starting from the constructor's state, the two candidate lists
of each query point hold the k nearest covered same-label and
different-label reference points up to ties at the k-th distance, with
every retained entry genuine, and GetResults reports each column sorted
by nondecreasing distance at the inverse-mapped positions; exact equality
with an index-tie-broken brute-force result does not hold in general
(queue ties retain the first-visited point, a traversal-order artifact).
-/
theorem lmnn_targets_amended (P : LParams) (kn ki q0 nref : ℕ)
    (evs : List LEvent) (hkn : 0 < kn) (hki : 0 < ki)
    (hconf : conformantFor P q0 (initialLState kn ki P.nq nref) evs = true) :
    LPost P q0 kn ki (runLmnn P evs (initialLState kn ki P.nq nref)) := by
  have hinv := LInv_run P q0 kn ki evs (initialLState kn ki P.nq nref)
    (LInv_initial P q0 kn ki P.nq nref hkn hki) hconf
  obtain ⟨⟨hnlen, hnsort, _, hnsound, hncover, hnexc⟩,
    ⟨hilen, hisort, _, hisound, hicover, hiexc⟩⟩ := hinv
  refine ⟨hnlen, hilen, ?_, ?_, ?_, ?_, ?_, ?_⟩
  · intro c hcmem
    rcases hnsound c hcmem with h' | h'
    · exact Or.inl h'
    · exact Or.inr ⟨h'.2.1, h'.2.2.1, h'.2.2.2⟩
  · intro c hcmem
    rcases hisound c hcmem with h' | h'
    · exact Or.inl h'
    · exact Or.inr ⟨h'.2.1, h'.2.2.1, h'.2.2.2⟩
  · intro r hcov hrq hlab
    rcases hcov with hproc | hexcl
    · exact hncover r hproc hrq hlab
    · exact Or.inr (le_of_lt (hnexc r hexcl))
  · intro r hcov hrq hlab
    rcases hcov with hproc | hexcl
    · exact hicover r hproc hrq hlab
    · exact Or.inr (le_of_lt (hiexc r hexcl))
  · intro rofn
    exact ⟨getResultsColumn_sorted rofn _ hnsort,
      getResultsColumn_sorted rofn _ hisort⟩
  · intro qofn rofn hq
    rw [getResultsCols, List.mem_map]
    exact ⟨q0, List.mem_range.mpr hq, rfl⟩

/-- Modelled from the spec: the brute-force nearest same-label reference
point of q, with ties broken consistently by smaller index. -/
def bruteNearestSameLabel (P : LParams) (q : ℕ) (refs : List ℕ) :
    Option ℕ :=
  refs.foldl (fun best r =>
    if r = q ∨ P.queryLabels q ≠ P.referenceLabels r then best
    else match best with
      | none => some r
      | some b =>
          if P.d q r < P.d q b ∨ (P.d q r = P.d q b ∧ r < b) then some r
          else some b) none

/-- Concrete data for C2: three points all of label 0, distances
d(0,1) = d(0,2) = 5, one target requested (k = 1). -/
def lparamsC2 : LParams where
  nq := 3
  d := fun q r => ((([[0, 5, 5], [5, 0, 7], [5, 7, 0]].getD q []).getD r 0 :
    ℤ) : ℚ)
  queryLabels := fun _ => 0
  referenceLabels := fun _ => 0

/-- A traversal of lparamsC2 whose leaf order visits reference 2 before
reference 1 (a legal dual-tree order). -/
def eventsC2 : List LEvent :=
  [LEvent.base 0 2, LEvent.base 0 1]

/-- Claim C2 counterexample: the traversal eventsC2 conforms to the
pruning contract and processes both candidate references of query point
0, yet the retained single target is reference 2 while the brute-force
nearest same-label point with index tie-breaking is reference 1 - the two
are equidistant and the queue keeps the first-visited one, so the
GetResults output differs from the brute-force result. -/
theorem lmnn_results_tie_counterexample :
    conformantFor lparamsC2 0 (initialLState 1 1 3 3) eventsC2 = true ∧
      (runLmnn lparamsC2 eventsC2 (initialLState 1 1 3 3)).processed 0 =
        [1, 2] ∧
      lparamsC2.d 0 1 = lparamsC2.d 0 2 ∧
      (runLmnn lparamsC2 eventsC2 (initialLState 1 1 3 3)).candidateNeighbors
          0 = [(5, 2)] ∧
      getResultsColumn id
          ((runLmnn lparamsC2 eventsC2
            (initialLState 1 1 3 3)).candidateNeighbors 0) = [(2, 5)] ∧
      bruteNearestSameLabel lparamsC2 0 [1, 2] = some 1 := by
  refine ⟨by decide, by decide, by decide, by decide, by decide, by decide⟩

/-- Witness for the C2 amended theorem on the concrete data. -/
theorem lmnn_targets_amended_witness :
    0 < 1 ∧
      conformantFor lparamsC2 0 (initialLState 1 1 lparamsC2.nq 3) eventsC2 =
        true ∧
      LPost lparamsC2 0 1 1
        (runLmnn lparamsC2 eventsC2 (initialLState 1 1 lparamsC2.nq 3)) :=
  ⟨Nat.zero_lt_one, by decide,
    lmnn_targets_amended lparamsC2 1 1 0 3 eventsC2 Nat.zero_lt_one
      Nat.zero_lt_one (by decide)⟩


end Lmnn

namespace Kmeans

/-! ### DTNNKMeans::UpdateTree (dtnn_kmeans_impl.hpp lines 196-407)

The recursion walks the reference tree top-down.  Each call resets the
node's StaticPruned flag, optionally inherits the parent's whole-tree
prune, adjusts the node bounds (possibly re-marking the node statically
pruned), tries to prune the node's directly-held points, recurses into
the children collecting allChildrenPruned, fatally aborts when the node
is statically pruned but some child is not, marks the node statically
pruned bottom-up when all children and all points are pruned, and
finally either resets the bounds (unpruned) or accumulates the bound
movements (pruned).  Log::Fatal is modelled as the none result. -/

/-- A reference tree: node identity, the point indices held directly at
the node, and the child subtrees. -/
inductive PTree where
  | node (id : ℕ) (pts : List ℕ) (children : List PTree)

def PTree.rootId : PTree → ℕ
  | .node i _ _ => i

def PTree.ptsOf : PTree → List ℕ
  | .node _ p _ => p

def PTree.childIds : PTree → List ℕ
  | .node _ _ cs => cs.map fun c => c.rootId

def PTree.childrenOf : PTree → List PTree
  | .node _ _ cs => cs

mutual

/-- All subtrees of a tree, the tree itself first. -/
def PTree.allNodes : PTree → List PTree
  | .node i p cs => PTree.node i p cs :: PTree.allNodesL cs

def PTree.allNodesL : List PTree → List PTree
  | [] => []
  | c :: cs => c.allNodes ++ PTree.allNodesL cs

end

def PTree.ids (t : PTree) : List ℕ := t.allNodes.map PTree.rootId

def PTree.idsL (cs : List PTree) : List ℕ :=
  (PTree.allNodesL cs).map PTree.rootId

def PTree.allPoints (t : PTree) : List ℕ :=
  (t.allNodes.map PTree.ptsOf).flatten

def PTree.pointsL (cs : List PTree) : List ℕ :=
  ((PTree.allNodesL cs).map PTree.ptsOf).flatten

/-- Mutable data read and written by UpdateTree: the per-node statistic
fields (indexed by node identity) and the per-point arrays of the
DTNNKMeans object. -/
structure UState where
  upperBound : ℕ → ℚ
  lowerBound : ℕ → ℚ
  pruned : ℕ → ℕ
  owner : ℕ → ℕ
  staticPruned : ℕ → Bool
  staticUpperBoundMovement : ℕ → ℚ
  staticLowerBoundMovement : ℕ → ℚ
  upperBounds : ℕ → ℚ
  lowerBounds : ℕ → ℚ
  prunedPoints : ℕ → Bool
  visited : ℕ → Bool
  assignments : ℕ → ℕ

/-- Read-only data of one UpdateTree pass: the number of centroids, the
centroid movements (clusterDistances, index k = maximum movement), the
halved-is-applied-later intercluster distances, the exact point-to-owner
distances, and the exact node-to-owner maximum distances. -/
structure UTParams where
  k : ℕ
  clusterDistances : ℕ → ℚ
  interclusterDistances : ℕ → ℚ
  pointDist : ℕ → ℕ → ℚ
  maxDist : ℕ → ℕ → ℚ

/-- Lines 201-213: reset StaticPruned, then inherit the bounds, prune
count and owner from a parent that pruned everything. -/
def inheritStatU (P : UTParams) (par : Option ℕ) (nid : ℕ)
    (st : UState) : UState :=
  let st0 :=
    { st with staticPruned := Function.update st.staticPruned nid false }
  match par with
  | none => st0
  | some p =>
      if st0.pruned p = P.k then
        { st0 with
          upperBound := Function.update st0.upperBound nid (st0.upperBound p),
          lowerBound := Function.update st0.lowerBound nid
            (st0.lowerBound p + P.clusterDistances P.k),
          pruned := Function.update st0.pruned nid (st0.pruned p),
          owner := Function.update st0.owner nid (st0.owner p) }
      else st0

/-- Lines 267-296: for a node owned by a single cluster, adjust the upper
bound by the owner movement and the lower bound by the maximum movement
and the intercluster rule, marking the node statically pruned right away
or after one exact MaxDistance tightening; otherwise only loosen the
lower bound. -/
def adjustNodeBounds (P : UTParams) (nid : ℕ) (st : UState) : UState :=
  if st.pruned nid = P.k ∧ st.owner nid < P.k then
    let ub1 := st.upperBound nid + P.clusterDistances (st.owner nid)
    let lb1 := st.lowerBound nid - P.clusterDistances P.k
    let icb := P.interclusterDistances (st.owner nid) / 2
    let lb2 := if icb > lb1 then icb else lb1
    if ub1 < lb2 then
      { st with
        upperBound := Function.update st.upperBound nid ub1,
        lowerBound := Function.update st.lowerBound nid lb2,
        staticPruned := Function.update st.staticPruned nid true }
    else
      let ub2 := P.maxDist nid (st.owner nid)
      if ub2 < lb2 then
        { st with
          upperBound := Function.update st.upperBound nid ub2,
          lowerBound := Function.update st.lowerBound nid lb2,
          staticPruned := Function.update st.staticPruned nid true }
      else
        { st with
          upperBound := Function.update st.upperBound nid ub2,
          lowerBound := Function.update st.lowerBound nid lb2 }
  else
    let lbv := st.lowerBound nid - P.clusterDistances P.k
    { st with lowerBound := Function.update st.lowerBound nid lbv }

/-- The node-statistic phase of one UpdateTree call (lines 201-296). -/
def updateNodeStat (P : UTParams) (par : Option ℕ) (nid : ℕ)
    (st : UState) : UState :=
  adjustNodeBounds P nid (inheritStatU P par nid st)

/-- Lines 302-353, one iteration of the individual-point pruning loop;
the Bool accumulator is allPointsPruned.  pl is prunedLastIteration. -/
def pointStep (P : UTParams) (pl : Bool) (nid : ℕ) (acc : UState × Bool)
    (index : ℕ) : UState × Bool :=
  let st := acc.1
  if st.visited index = false ∧ st.prunedPoints index = false then
    ({ st with
       upperBounds := Function.update st.upperBounds index DBL_MAX,
       lowerBounds := Function.update st.lowerBounds index DBL_MAX },
     false)
  else
    let stA :=
      if pl then
        { st with
          upperBounds := Function.update st.upperBounds index
            (st.upperBounds index + st.staticUpperBoundMovement nid),
          lowerBounds := Function.update st.lowerBounds index
            (st.lowerBounds index - st.staticLowerBoundMovement nid) }
      else st
    let stB :=
      { stA with prunedPoints := Function.update stA.prunedPoints index false }
    let ow := stB.assignments index
    let lb := min (stB.lowerBounds index - P.clusterDistances P.k)
      (stB.lowerBound nid)
    let plb := max lb (P.interclusterDistances ow / 2)
    if stB.upperBounds index + P.clusterDistances ow < plb then
      ({ stB with
         prunedPoints := Function.update stB.prunedPoints index true,
         upperBounds := Function.update stB.upperBounds index
           (stB.upperBounds index + P.clusterDistances ow),
         lowerBounds := Function.update stB.lowerBounds index plb },
       acc.2)
    else
      let ub := P.pointDist index ow
      if ub < plb then
        ({ stB with
           prunedPoints := Function.update stB.prunedPoints index true,
           upperBounds := Function.update stB.upperBounds index ub,
           lowerBounds := Function.update stB.lowerBounds index plb },
         acc.2)
      else
        ({ stB with
           upperBounds := Function.update stB.upperBounds index DBL_MAX,
           lowerBounds := Function.update stB.lowerBounds index DBL_MAX },
         false)

/-- Lines 201-353 together: the statistic phase and, unless the node got
statically pruned there, the point loop.  Returns the state and
allPointsPruned (initialized true, so a skipped loop reports true). -/
def updateNodeLocal (P : UTParams) (par : Option ℕ) (nid : ℕ)
    (pts : List ℕ) (st : UState) : UState × Bool :=
  let st2 := updateNodeStat P par nid st
  if st2.staticPruned nid then (st2, true)
  else pts.foldl (pointStep P (st.staticPruned nid) nid) (st2, true)

mutual

/-- One whole UpdateTree call (lines 196-407).  none models Log::Fatal at
lines 366-370 (a statically pruned node with an unpruned child). -/
def updateTreeAux (P : UTParams) (par : Option ℕ) :
    PTree → UState → Option UState
  | PTree.node nid pts cs, st =>
      let pl := st.staticPruned nid
      let la := updateNodeLocal P par nid pts st
      match updateTreeChildren P nid cs (la.1, true) with
      | none => none
      | some (st4, acp) =>
          if st4.staticPruned nid && !acp then none
          else
            let st5 :=
              if acp && la.2 && !(st4.staticPruned nid) then
                { st4 with
                  staticPruned := Function.update st4.staticPruned nid true,
                  owner := Function.update st4.owner nid P.k,
                  pruned := Function.update st4.pruned nid SIZE_MAX }
              else st4
            let st6 :=
              if !(st5.staticPruned nid) then
                { st5 with
                  upperBound := Function.update st5.upperBound nid DBL_MAX,
                  lowerBound := Function.update st5.lowerBound nid DBL_MAX,
                  pruned := Function.update st5.pruned nid SIZE_MAX,
                  owner := Function.update st5.owner nid P.k,
                  staticPruned := Function.update st5.staticPruned nid false }
              else
                if pl then
                  { st5 with
                    staticUpperBoundMovement := Function.update
                      st5.staticUpperBoundMovement nid
                      (st5.staticUpperBoundMovement nid +
                        P.clusterDistances (st5.owner nid)),
                    staticLowerBoundMovement := Function.update
                      st5.staticLowerBoundMovement nid
                      (st5.staticLowerBoundMovement nid +
                        P.clusterDistances P.k) }
                else
                  { st5 with
                    staticUpperBoundMovement := Function.update
                      st5.staticUpperBoundMovement nid
                      (P.clusterDistances (st5.owner nid)),
                    staticLowerBoundMovement := Function.update
                      st5.staticLowerBoundMovement nid
                      (P.clusterDistances P.k) }
            some st6

/-- Lines 356-363: recurse into the children in order, collecting
allChildrenPruned from each child's StaticPruned flag right after its
recursive call. -/
def updateTreeChildren (P : UTParams) (nid : ℕ) :
    List PTree → UState × Bool → Option (UState × Bool)
  | [], acc => some acc
  | c :: cs, acc =>
      match updateTreeAux P (some nid) c acc.1 with
      | none => none
      | some stc =>
          updateTreeChildren P nid cs (stc, acc.2 && stc.staticPruned c.rootId)

end


/-- The bundle of node-statistic fields at one node identity. -/
def statOf (st : UState) (j : ℕ) : ℚ × ℚ × ℕ × ℕ × Bool × ℚ × ℚ :=
  (st.upperBound j, st.lowerBound j, st.pruned j, st.owner j,
   st.staticPruned j, st.staticUpperBoundMovement j,
   st.staticLowerBoundMovement j)

/-- The bundle of per-point fields at one point index. -/
def pointOf (st : UState) (q : ℕ) : ℚ × ℚ × Bool :=
  (st.upperBounds q, st.lowerBounds q, st.prunedPoints q)

theorem ids_node (nid : ℕ) (pts : List ℕ) (cs : List PTree) :
    (PTree.node nid pts cs).ids = nid :: PTree.idsL cs := rfl

theorem idsL_cons (c : PTree) (cs : List PTree) :
    PTree.idsL (c :: cs) = c.ids ++ PTree.idsL cs := by
  simp [PTree.idsL, PTree.ids, PTree.allNodesL]

theorem allPoints_node (nid : ℕ) (pts : List ℕ) (cs : List PTree) :
    (PTree.node nid pts cs).allPoints = pts ++ PTree.pointsL cs := by
  simp [PTree.allPoints, PTree.pointsL, PTree.allNodes, PTree.ptsOf]

theorem pointsL_cons (c : PTree) (cs : List PTree) :
    PTree.pointsL (c :: cs) = c.allPoints ++ PTree.pointsL cs := by
  simp [PTree.pointsL, PTree.allPoints, PTree.allNodesL]

theorem rootId_mem_ids (t : PTree) : t.rootId ∈ t.ids := by
  cases t with
  | node nid pts cs =>
    rw [ids_node]
    exact List.mem_cons_self _ _

theorem ids_sub_idsL {c : PTree} {cs : List PTree} (h : c ∈ cs) :
    ∀ j ∈ c.ids, j ∈ PTree.idsL cs := by
  induction cs with
  | nil => exact absurd h (List.not_mem_nil c)
  | cons d ds ih =>
    intro j hj
    rw [idsL_cons, List.mem_append]
    rcases List.mem_cons.mp h with h' | h'
    · exact Or.inl (h' ▸ hj)
    · exact Or.inr (ih h' j hj)

theorem points_sub_pointsL {c : PTree} {cs : List PTree} (h : c ∈ cs) :
    ∀ q ∈ c.allPoints, q ∈ PTree.pointsL cs := by
  induction cs with
  | nil => exact absurd h (List.not_mem_nil c)
  | cons d ds ih =>
    intro q hq
    rw [pointsL_cons, List.mem_append]
    rcases List.mem_cons.mp h with h' | h'
    · exact Or.inl (h' ▸ hq)
    · exact Or.inr (ih h' q hq)

theorem mem_allNodesL {n : PTree} :
    ∀ {cs : List PTree}, n ∈ PTree.allNodesL cs →
      ∃ c ∈ cs, n ∈ c.allNodes := by
  intro cs
  induction cs with
  | nil => intro h; exact absurd h (List.not_mem_nil n)
  | cons d ds ih =>
    intro h
    rw [PTree.allNodesL, List.mem_append] at h
    rcases h with h | h
    · exact ⟨d, List.mem_cons_self _ _, h⟩
    · obtain ⟨c, hc, hn⟩ := ih h
      exact ⟨c, List.mem_cons_of_mem _ hc, hn⟩

theorem child_sizeOf {c : PTree} {cs : List PTree} (hc : c ∈ cs)
    (nid : ℕ) (pts : List ℕ) :
    sizeOf c < sizeOf (PTree.node nid pts cs) := by
  have h1 : sizeOf c < sizeOf cs := List.sizeOf_lt_of_mem hc
  have h2 : sizeOf cs < sizeOf (PTree.node nid pts cs) := by
    simp [PTree.node.sizeOf_spec]
  omega

/-- Every subtree's root and child identities live inside the tree's
identity list. -/
theorem subtree_ids (N : ℕ) : ∀ (t : PTree), sizeOf t ≤ N →
    ∀ n ∈ t.allNodes, n.rootId ∈ t.ids ∧ ∀ cid ∈ n.childIds, cid ∈ t.ids := by
  induction N with
  | zero =>
    intro t ht
    cases t with
    | node nid pts cs => simp [PTree.node.sizeOf_spec] at ht
  | succ N ih =>
    intro t ht n hn
    cases t with
    | node nid pts cs =>
      rw [PTree.allNodes, List.mem_cons] at hn
      rcases hn with hn | hn
      · subst hn
        refine ⟨rootId_mem_ids _, ?_⟩
        intro cid hcid
        rw [PTree.childIds, List.mem_map] at hcid
        obtain ⟨c, hc, hcid⟩ := hcid
        rw [ids_node]
        exact List.mem_cons_of_mem _
          (ids_sub_idsL hc _ (hcid ▸ rootId_mem_ids c))
      · obtain ⟨c, hc, hnc⟩ := mem_allNodesL hn
        have hsz : sizeOf c ≤ N := by
          have := child_sizeOf hc nid pts
          omega
        obtain ⟨h1, h2⟩ := ih c hsz n hnc
        rw [ids_node]
        refine ⟨List.mem_cons_of_mem _ (ids_sub_idsL hc _ h1), ?_⟩
        intro cid hcid
        exact List.mem_cons_of_mem _ (ids_sub_idsL hc _ (h2 cid hcid))


/-- One point step touches no node statistic and leaves visited and
assignments alone. -/
theorem pointStep_stat (P : UTParams) (pl : Bool) (nid : ℕ)
    (acc : UState × Bool) (index : ℕ) :
    (∀ j, statOf (pointStep P pl nid acc index).1 j = statOf acc.1 j) ∧
      (pointStep P pl nid acc index).1.visited = acc.1.visited ∧
      (pointStep P pl nid acc index).1.assignments = acc.1.assignments := by
  simp only [pointStep]
  repeat' split
  all_goals simp [statOf]

/-- One point step changes per-point data only at its own index. -/
theorem pointStep_point (P : UTParams) (pl : Bool) (nid : ℕ)
    (acc : UState × Bool) (index j : ℕ) (hj : j ≠ index) :
    pointOf (pointStep P pl nid acc index).1 j = pointOf acc.1 j := by
  simp only [pointStep]
  repeat' split
  all_goals simp [pointOf, Function.update_noteq hj]

/-- Each point step either clears the all-pruned flag or passes it
through with its own point pruned. -/
theorem pointStep_cases (P : UTParams) (pl : Bool) (nid : ℕ)
    (acc : UState × Bool) (index : ℕ) :
    (pointStep P pl nid acc index).2 = false ∨
      ((pointStep P pl nid acc index).2 = acc.2 ∧
        (pointStep P pl nid acc index).1.prunedPoints index = true) := by
  simp only [pointStep]
  repeat' split
  all_goals simp [Function.update_same]

/-- If a point step reports all points pruned so far, the flag was
already set and the step's own point ended pruned. -/
theorem pointStep_pruned (P : UTParams) (pl : Bool) (nid : ℕ)
    (acc : UState × Bool) (index : ℕ)
    (h : (pointStep P pl nid acc index).2 = true) :
    acc.2 = true ∧
      (pointStep P pl nid acc index).1.prunedPoints index = true := by
  rcases pointStep_cases P pl nid acc index with hf | ⟨h2, hp⟩
  · rw [hf] at h
    exact Bool.noConfusion h
  · rw [h2] at h
    exact ⟨h, hp⟩

theorem pointsFold_stat (P : UTParams) (pl : Bool) (nid : ℕ) :
    ∀ (pts : List ℕ) (acc : UState × Bool),
      (∀ j, statOf (pts.foldl (pointStep P pl nid) acc).1 j =
          statOf acc.1 j) ∧
      (pts.foldl (pointStep P pl nid) acc).1.visited = acc.1.visited ∧
      (pts.foldl (pointStep P pl nid) acc).1.assignments =
        acc.1.assignments := by
  intro pts
  induction pts with
  | nil => exact fun acc => ⟨fun j => rfl, rfl, rfl⟩
  | cons p rest ih =>
    intro acc
    rw [List.foldl_cons]
    obtain ⟨h1, h2, h3⟩ := ih (pointStep P pl nid acc p)
    obtain ⟨g1, g2, g3⟩ := pointStep_stat P pl nid acc p
    exact ⟨fun j => (h1 j).trans (g1 j), h2.trans g2, h3.trans g3⟩

theorem pointsFold_point (P : UTParams) (pl : Bool) (nid : ℕ) :
    ∀ (pts : List ℕ) (acc : UState × Bool) (j : ℕ), j ∉ pts →
      pointOf (pts.foldl (pointStep P pl nid) acc).1 j = pointOf acc.1 j := by
  intro pts
  induction pts with
  | nil => exact fun acc j _ => rfl
  | cons p rest ih =>
    intro acc j hj
    rw [List.foldl_cons]
    have hjp : j ≠ p := fun habs => hj (habs ▸ List.mem_cons_self _ _)
    have hjr : j ∉ rest := fun habs => hj (List.mem_cons_of_mem _ habs)
    exact (ih (pointStep P pl nid acc p) j hjr).trans
      (pointStep_point P pl nid acc p j hjp)

theorem pointsFold_absorb (P : UTParams) (pl : Bool) (nid : ℕ) :
    ∀ (pts : List ℕ) (acc : UState × Bool),
      (pts.foldl (pointStep P pl nid) acc).2 = true → acc.2 = true := by
  intro pts
  induction pts with
  | nil => exact fun acc h => h
  | cons p rest ih =>
    intro acc h
    rw [List.foldl_cons] at h
    exact (pointStep_pruned P pl nid acc p (ih _ h)).1

/-- If the whole point loop reports all points pruned, every point of the
(duplicate-free) list ends with its pruned flag set. -/
theorem pointsFold_allPruned (P : UTParams) (pl : Bool) (nid : ℕ) :
    ∀ (pts : List ℕ) (acc : UState × Bool), pts.Nodup →
      (pts.foldl (pointStep P pl nid) acc).2 = true →
      ∀ p ∈ pts, (pts.foldl (pointStep P pl nid) acc).1.prunedPoints p =
        true := by
  intro pts
  induction pts with
  | nil => intro acc _ _ p hp; exact absurd hp (List.not_mem_nil p)
  | cons q rest ih =>
    intro acc hnd h p hp
    rw [List.nodup_cons] at hnd
    rw [List.foldl_cons] at h ⊢
    rcases List.mem_cons.mp hp with hp' | hp'
    · subst hp'
      have habs := pointsFold_absorb P pl nid rest _ h
      have hstep := (pointStep_pruned P pl nid acc p habs).2
      have hfr := pointsFold_point P pl nid rest
        (pointStep P pl nid acc p) p hnd.1
      have h22 : (rest.foldl (pointStep P pl nid)
            (pointStep P pl nid acc p)).1.prunedPoints p =
          (pointStep P pl nid acc p).1.prunedPoints p :=
        congrArg (fun x => x.2.2) hfr
      rw [h22, hstep]
    · exact ih _ hnd.2 h p hp'


/-- The statistic phase writes only its own node's statistic and no
per-point data. -/
theorem updateNodeStat_frame (P : UTParams) (par : Option ℕ) (nid : ℕ)
    (st : UState) :
    (∀ j, j ≠ nid → statOf (updateNodeStat P par nid st) j = statOf st j) ∧
      (∀ q, pointOf (updateNodeStat P par nid st) q = pointOf st q) ∧
      (updateNodeStat P par nid st).visited = st.visited ∧
      (updateNodeStat P par nid st).assignments = st.assignments := by
  refine ⟨fun j hj => ?_, fun q => ?_, ?_, ?_⟩
  · simp only [updateNodeStat, adjustNodeBounds, inheritStatU]
    repeat' split
    all_goals simp [statOf, Function.update_noteq hj]
  · simp only [updateNodeStat, adjustNodeBounds, inheritStatU]
    repeat' split
    all_goals simp [pointOf]
  · simp only [updateNodeStat, adjustNodeBounds, inheritStatU]
    repeat' split
    all_goals simp
  · simp only [updateNodeStat, adjustNodeBounds, inheritStatU]
    repeat' split
    all_goals simp

/-- The whole local phase (statistic and point loop) writes only the
node's statistic and the per-point data of its own direct points. -/
theorem updateNodeLocal_frame (P : UTParams) (par : Option ℕ) (nid : ℕ)
    (pts : List ℕ) (st : UState) :
    (∀ j, j ≠ nid →
        statOf (updateNodeLocal P par nid pts st).1 j = statOf st j) ∧
      (∀ q, q ∉ pts →
        pointOf (updateNodeLocal P par nid pts st).1 q = pointOf st q) := by
  obtain ⟨h1, h2, _, _⟩ := updateNodeStat_frame P par nid st
  rw [updateNodeLocal]
  split
  · exact ⟨h1, fun q _ => h2 q⟩
  · constructor
    · intro j hj
      exact ((pointsFold_stat P (st.staticPruned nid) nid pts _).1 j).trans
        (h1 j hj)
    · intro q hq
      exact (pointsFold_point P (st.staticPruned nid) nid pts _ q hq).trans
        (h2 q)

/-- If the local phase ends with the node not statically pruned but
reports all points pruned, every direct point (duplicate-free) ends with
its pruned flag set. -/
theorem updateNodeLocal_allPruned (P : UTParams) (par : Option ℕ) (nid : ℕ)
    (pts : List ℕ) (st : UState) (hnd : pts.Nodup)
    (hsp : (updateNodeLocal P par nid pts st).1.staticPruned nid = false)
    (hall : (updateNodeLocal P par nid pts st).2 = true) :
    ∀ p ∈ pts, (updateNodeLocal P par nid pts st).1.prunedPoints p = true := by
  rw [updateNodeLocal] at hsp hall ⊢
  by_cases hc : (updateNodeStat P par nid st).staticPruned nid = true
  · rw [if_pos hc] at hsp
    simp only [] at hsp
    rw [hsp] at hc
    exact Bool.noConfusion hc
  · rw [if_neg hc] at hall ⊢
    exact pointsFold_allPruned P (st.staticPruned nid) nid pts _ hnd hall


theorem statOf_sp {st st' : UState} {j : ℕ}
    (h : statOf st' j = statOf st j) :
    st'.staticPruned j = st.staticPruned j :=
  congrArg (fun x => x.2.2.2.2.1) h

theorem pointOf_pp {st st' : UState} {q : ℕ}
    (h : pointOf st' q = pointOf st q) :
    st'.prunedPoints q = st.prunedPoints q :=
  congrArg (fun x => x.2.2) h

theorem subtree_ids_L (cs : List PTree) :
    ∀ n ∈ PTree.allNodesL cs, n.rootId ∈ PTree.idsL cs ∧
      ∀ cid ∈ n.childIds, cid ∈ PTree.idsL cs := by
  intro n hn
  obtain ⟨c, hc, hnc⟩ := mem_allNodesL hn
  obtain ⟨h1, h2⟩ := subtree_ids (sizeOf c) c (le_refl _) n hnc
  exact ⟨ids_sub_idsL hc _ h1, fun cid hcid => ids_sub_idsL hc _ (h2 cid hcid)⟩

/-- The guarantees of one completed UpdateTree call: it writes only
inside its subtree, every statically pruned subtree node has all children
statically pruned (the fatal check rejects everything else), and a node
whose local phase did not prune it is statically pruned afterwards only
by the bottom-up marking, i.e. only with all children statically pruned
and all direct points pruned. -/
def UMain (P : UTParams) (par : Option ℕ) (t : PTree)
    (st st' : UState) : Prop :=
  (∀ j, j ∉ t.ids → statOf st' j = statOf st j) ∧
  (∀ q, q ∉ t.allPoints → pointOf st' q = pointOf st q) ∧
  (∀ n ∈ t.allNodes, st'.staticPruned n.rootId = true →
     ∀ cid ∈ n.childIds, st'.staticPruned cid = true) ∧
  ((updateNodeLocal P par t.rootId t.ptsOf st).1.staticPruned t.rootId =
      false →
   st'.staticPruned t.rootId = true →
   (∀ cid ∈ t.childIds, st'.staticPruned cid = true) ∧
   (∀ p ∈ t.ptsOf, st'.prunedPoints p = true))

/-- The soundness transfer through the child recursion loop. -/
theorem updateTreeChildren_sound (P : UTParams) (nid : ℕ) :
    ∀ (cs : List PTree),
      (∀ c ∈ cs, ∀ par st st', c.ids.Nodup → c.allPoints.Nodup →
        updateTreeAux P par c st = some st' → UMain P par c st st') →
      (PTree.idsL cs).Nodup → (PTree.pointsL cs).Nodup →
      ∀ acc out, updateTreeChildren P nid cs acc = some out →
        (∀ j, j ∉ PTree.idsL cs → statOf out.1 j = statOf acc.1 j) ∧
        (∀ q, q ∉ PTree.pointsL cs → pointOf out.1 q = pointOf acc.1 q) ∧
        (out.2 = true → acc.2 = true ∧
          ∀ c ∈ cs, out.1.staticPruned c.rootId = true) ∧
        (∀ n ∈ PTree.allNodesL cs, out.1.staticPruned n.rootId = true →
          ∀ cid ∈ n.childIds, out.1.staticPruned cid = true) := by
  intro cs
  induction cs with
  | nil =>
    intro _ _ _ acc out hfold
    simp only [updateTreeChildren, Option.some.injEq] at hfold
    subst hfold
    refine ⟨fun j _ => rfl, fun q _ => rfl, fun h => ⟨h, ?_⟩, ?_⟩
    · intro c hc
      exact absurd hc (List.not_mem_nil c)
    · intro n hn
      exact absurd hn (List.not_mem_nil n)
  | cons c cs ih =>
    intro hIH hnd hpnd acc out hfold
    rw [idsL_cons, List.nodup_append] at hnd
    rw [pointsL_cons, List.nodup_append] at hpnd
    obtain ⟨hndc, hndcs, hdisj⟩ := hnd
    obtain ⟨hpndc, hpndcs, hpdisj⟩ := hpnd
    simp only [updateTreeChildren] at hfold
    cases hc : updateTreeAux P (some nid) c acc.1 with
    | none => rw [hc] at hfold; exact absurd hfold (by simp)
    | some stc =>
      rw [hc] at hfold
      obtain ⟨cm1, cm2, cm3, _⟩ :=
        hIH c (List.mem_cons_self _ _) (some nid) acc.1 stc hndc hpndc hc
      obtain ⟨r1, r2, r3, r4⟩ :=
        ih (fun d hd => hIH d (List.mem_cons_of_mem _ hd)) hndcs hpndcs
          (stc, acc.2 && stc.staticPruned c.rootId) out hfold
      have hframe : ∀ j ∈ c.ids, statOf out.1 j = statOf stc j := by
        intro j hj
        exact r1 j (fun habs => hdisj hj habs)
      have hpframe : ∀ q ∈ c.allPoints, pointOf out.1 q = pointOf stc q := by
        intro q hq
        exact r2 q (fun habs => hpdisj hq habs)
      refine ⟨?_, ?_, ?_, ?_⟩
      · intro j hj
        rw [idsL_cons, List.mem_append] at hj
        push_neg at hj
        exact (r1 j hj.2).trans (cm1 j hj.1)
      · intro q hq
        rw [pointsL_cons, List.mem_append] at hq
        push_neg at hq
        exact (r2 q hq.2).trans (cm2 q hq.1)
      · intro hout
        obtain ⟨hacc, hall⟩ := r3 hout
        rw [Bool.and_eq_true] at hacc
        refine ⟨hacc.1, ?_⟩
        intro d hd
        rcases List.mem_cons.mp hd with hd' | hd'
        · subst hd'
          rw [statOf_sp (hframe _ (rootId_mem_ids d))]
          exact hacc.2
        · exact hall d hd'
      · intro n hn hsp cid hcid
        rw [PTree.allNodesL, List.mem_append] at hn
        rcases hn with hn | hn
        · obtain ⟨hr, hcids⟩ :=
            subtree_ids (sizeOf c) c (le_refl _) n hn
          have hn1 : out.1.staticPruned n.rootId =
              stc.staticPruned n.rootId := statOf_sp (hframe _ hr)
          have hn2 : out.1.staticPruned cid = stc.staticPruned cid :=
            statOf_sp (hframe _ (hcids cid hcid))
          rw [hn2]
          rw [hn1] at hsp
          exact cm3 n hn hsp cid hcid
        · exact r4 n hn hsp cid hcid


/-- Soundness of one whole UpdateTree call, by strong induction on the
tree size. -/
theorem updateTreeAux_sound (P : UTParams) :
    ∀ (N : ℕ) (t : PTree), sizeOf t ≤ N → ∀ par st st',
      t.ids.Nodup → t.allPoints.Nodup →
      updateTreeAux P par t st = some st' → UMain P par t st st' := by
  intro N
  induction N with
  | zero =>
    intro t ht
    cases t with
    | node nid pts cs => simp [PTree.node.sizeOf_spec] at ht
  | succ N ih =>
    intro t ht par st st' hnd hpnd hrun
    cases t with
    | node nid pts cs =>
      rw [ids_node, List.nodup_cons] at hnd
      rw [allPoints_node, List.nodup_append] at hpnd
      obtain ⟨hnidn, hndcs⟩ := hnd
      obtain ⟨hpnd1, hpnd2, hpdisj⟩ := hpnd
      simp only [updateTreeAux] at hrun
      cases hch : updateTreeChildren P nid cs
          ((updateNodeLocal P par nid pts st).1, true) with
      | none => rw [hch] at hrun; exact absurd hrun (by simp)
      | some p4 =>
        obtain ⟨st4, acp⟩ := p4
        rw [hch] at hrun
        simp only [] at hrun
        by_cases hfat : (st4.staticPruned nid && !acp) = true
        · rw [if_pos hfat] at hrun
          exact absurd hrun (by simp)
        · rw [if_neg hfat] at hrun
          have hst' : st' = _ := (Option.some.inj hrun).symm
          obtain ⟨r1, r2, r3, r4⟩ := updateTreeChildren_sound P nid cs
            (fun c hc par2 st2 st2' hn2 hp2 hr2 =>
              ih c (by have := child_sizeOf hc nid pts; omega)
                par2 st2 st2' hn2 hp2 hr2)
            hndcs hpnd2 _ _ hch
          obtain ⟨l1, l2⟩ := updateNodeLocal_frame P par nid pts st
          have hF1 : ∀ j, j ≠ nid → statOf st' j = statOf st4 j := by
            intro j hj
            rw [hst']
            repeat' split
            all_goals simp [statOf, Function.update_noteq hj]
          have hF2 : ∀ q, pointOf st' q = pointOf st4 q := by
            intro q
            rw [hst']
            repeat' split
            all_goals simp [pointOf]
          have hsp4 : st4.staticPruned nid =
              (updateNodeLocal P par nid pts st).1.staticPruned nid := by
            exact statOf_sp (r1 nid hnidn)
          have hacp : st'.staticPruned nid = true → acp = true := by
            intro h
            rw [hst'] at h
            by_cases hm : (acp && (updateNodeLocal P par nid pts st).2 &&
                !(st4.staticPruned nid)) = true
            · exact (Bool.and_eq_true _ _).mp
                ((Bool.and_eq_true _ _).mp hm).1 |>.1
            · rw [if_neg hm] at h
              by_cases hsp : st4.staticPruned nid = true
              · simp only [Bool.and_eq_true, Bool.not_eq_true'] at hfat
                rcases Bool.eq_false_or_eq_true acp with ht | hf
                · exact ht
                · exact absurd ⟨hsp, hf⟩ hfat
              · rw [Bool.not_eq_true] at hsp
                rw [hsp] at h
                simp [Function.update_same] at h
          have hmarkonly : st4.staticPruned nid = false →
              st'.staticPruned nid = true →
              acp = true ∧ (updateNodeLocal P par nid pts st).2 = true := by
            intro hsp h
            rw [hst'] at h
            by_cases hm : (acp && (updateNodeLocal P par nid pts st).2 &&
                !(st4.staticPruned nid)) = true
            · have hm1 := ((Bool.and_eq_true _ _).mp hm).1
              exact (Bool.and_eq_true _ _).mp hm1
            · rw [if_neg hm] at h
              rw [hsp] at h
              simp [Function.update_same] at h
          have hchildren : acp = true →
              ∀ cid ∈ (PTree.node nid pts cs).childIds,
                st'.staticPruned cid = true := by
            intro hacp2 cid hcid
            rw [PTree.childIds, List.mem_map] at hcid
            obtain ⟨c, hcmem, hcid⟩ := hcid
            have hc4 := (r3 hacp2).2 c hcmem
            have hne : c.rootId ≠ nid := by
              intro habs
              exact hnidn (habs ▸ ids_sub_idsL hcmem _ (rootId_mem_ids c))
            rw [← hcid]
            rw [statOf_sp (hF1 c.rootId hne)]
            exact hc4
          refine ⟨?_, ?_, ?_, ?_⟩
          · intro j hj
            rw [ids_node, List.mem_cons] at hj
            push_neg at hj
            exact (hF1 j hj.1).trans ((r1 j hj.2).trans (l1 j hj.1))
          · intro q hq
            rw [allPoints_node, List.mem_append] at hq
            push_neg at hq
            exact (hF2 q).trans ((r2 q hq.2).trans (l2 q hq.1))
          · intro n hn hsp cid hcid
            rw [PTree.allNodes, List.mem_cons] at hn
            rcases hn with hn | hn
            · subst hn
              exact hchildren (hacp hsp) cid hcid
            · obtain ⟨hr, hcids⟩ := subtree_ids_L cs n hn
              have hrne : n.rootId ≠ nid := fun habs => hnidn (habs ▸ hr)
              have hcne : cid ≠ nid := fun habs =>
                hnidn (habs ▸ hcids cid hcid)
              rw [statOf_sp (hF1 cid hcne)]
              rw [statOf_sp (hF1 n.rootId hrne)] at hsp
              exact r4 n hn hsp cid hcid
          · intro hnew hsp
            have hsp4f : st4.staticPruned nid = false := by
              rw [hsp4]
              exact hnew
            obtain ⟨hacp2, hla2⟩ := hmarkonly hsp4f hsp
            refine ⟨hchildren hacp2 , ?_⟩
            intro p hp
            have hla := updateNodeLocal_allPruned P par nid pts st hpnd1
              hnew hla2 p hp
            have hpnc : p ∉ PTree.pointsL cs := fun habs => hpdisj hp habs
            rw [pointOf_pp (hF2 p), pointOf_pp (r2 p hpnc)]
            exact hla


/-- Claim C5: after UpdateTree completes (without the fatal halt) on a
tree with distinct node identities and distinct point ownership, every
statically pruned node of the tree has all of its children statically
pruned - a state violating this is rejected by the Log::Fatal halt
(the none result), never returned - and a node that was not statically
pruned by its own bound-adjustment phase is statically pruned afterwards
only through the bottom-up marking, which requires all of its children
statically pruned and all of its directly-owned points pruned. -/
theorem updatetree_static_pruned_invariant (P : UTParams) (t : PTree)
    (par : Option ℕ) (st0 : UState)
    (hnd : t.ids.Nodup) (hpnd : t.allPoints.Nodup) :
    ∀ st', updateTreeAux P par t st0 = some st' →
      (∀ n ∈ t.allNodes, st'.staticPruned n.rootId = true →
         ∀ cid ∈ n.childIds, st'.staticPruned cid = true) ∧
      ((updateNodeLocal P par t.rootId t.ptsOf st0).1.staticPruned
          t.rootId = false →
       st'.staticPruned t.rootId = true →
       (∀ cid ∈ t.childIds, st'.staticPruned cid = true) ∧
       (∀ p ∈ t.ptsOf, st'.prunedPoints p = true)) := by
  intro st' hrun
  obtain ⟨_, _, h3, h4⟩ := updateTreeAux_sound P (sizeOf t) t (le_refl _)
    par st0 st' hnd hpnd hrun
  exact ⟨h3, h4⟩

/-- Concrete data for the C5 witness: a root with two leaf children. -/
def treeC5 : PTree :=
  PTree.node 0 [5] [PTree.node 1 [6] [], PTree.node 2 [] []]

def utparamsC5 : UTParams where
  k := 2
  clusterDistances := fun _ => 0
  interclusterDistances := fun _ => 0
  pointDist := fun _ _ => 1
  maxDist := fun _ _ => 1

def ustateC5 : UState where
  upperBound := fun _ => 1
  lowerBound := fun _ => 0
  pruned := fun _ => 0
  owner := fun _ => 0
  staticPruned := fun _ => false
  staticUpperBoundMovement := fun _ => 0
  staticLowerBoundMovement := fun _ => 0
  upperBounds := fun _ => 1
  lowerBounds := fun _ => 0
  prunedPoints := fun _ => false
  visited := fun _ => false
  assignments := fun _ => 0

/-- Witness for the C5 theorem on the concrete tree. -/
theorem updatetree_static_pruned_invariant_witness :
    treeC5.ids.Nodup ∧ treeC5.allPoints.Nodup ∧
      (∀ st', updateTreeAux utparamsC5 none treeC5 ustateC5 = some st' →
        (∀ n ∈ treeC5.allNodes, st'.staticPruned n.rootId = true →
           ∀ cid ∈ n.childIds, st'.staticPruned cid = true) ∧
        ((updateNodeLocal utparamsC5 none treeC5.rootId treeC5.ptsOf
            ustateC5).1.staticPruned treeC5.rootId = false →
         st'.staticPruned treeC5.rootId = true →
         (∀ cid ∈ treeC5.childIds, st'.staticPruned cid = true) ∧
         (∀ p ∈ treeC5.ptsOf, st'.prunedPoints p = true))) :=
  ⟨by decide, by decide,
    updatetree_static_pruned_invariant utparamsC5 treeC5 none ustateC5
      (by decide) (by decide)⟩

end Kmeans

end Mlpack
